import Mathlib

/-!
Verification of the per-turn agent orchestration loop of CareCompanion.

The definitions below are a shallow embedding of the TypeScript sources,
chiefly `src/server/src/agents/groq/rag.ts` (class `GroqMedicalAgent`) and
`src/client/src/components/chat-message.tsx` (`extractTextFromStreamingJSON`).
JavaScript numbers that the program only compares are modelled as exact
rationals (`Rat`) for relevance scores and as integers (`Int`) for
geo-coordinates (a JS number's template-string rendering is its decimal
digits, which is what the coordinate claims are about).  External builtins
(`JSON.parse`, the network clients) are passed in as explicit function
parameters or outcome values; JS truthiness on optional strings/numbers is
modelled by explicit emptiness/zero tests at each use site, mirroring the
source expression by expression.
-/

namespace CareCompanion

/-- JS `String.prototype.trim` whitespace test (ASCII part; the Unicode
space classes are not exercised by any claim). -/
def jsWsB (c : Char) : Bool :=
  c = ' ' || c = '\t' || c = '\n' || c = '\r' || c = '\x0b' || c = '\x0c'

/-- JS `String.prototype.trim` on a character list: drop whitespace from
both ends. -/
def jsTrimList (l : List Char) : List Char :=
  ((l.dropWhile jsWsB).reverse.dropWhile jsWsB).reverse

/-- JS `rawText.trim()` modelled on Lean strings. -/
def jsTrim (s : String) : String :=
  String.mk (jsTrimList s.data)

/-- `estimateTokens` from rag.ts: `Math.ceil(text.length / 4)`. -/
def estimateTokens (text : String) : Nat :=
  (text.length + 3) / 4

/-- Token-management constants of `GroqMedicalAgent` (rag.ts). -/
def MAX_TOTAL_TOKENS : Nat := 28000

def SYSTEM_PROMPT_TOKENS : Nat := 2000

def CURRENT_MESSAGE_TOKENS : Nat := 500

def PINECONE_TOKEN_LIMIT : Nat := 3000

def MIN_HISTORY_MESSAGES : Nat := 3

/-- One Pinecone match as consumed by `retrieveFromPinecone`.  `score` is
`match.score` (absent = `undefined`); the three metadata fields use `""`
for an absent/falsy field, matching how `metadata?.text || ...` treats
them. -/
structure PineconeMatch where
  score : Option Rat
  metaText : String
  metaContent : String
  metaSource : String
deriving DecidableEq

/-- The guard `match.score && match.score < 0.7` of rag.ts line 129:
`continue` exactly when the score is present, truthy (nonzero) and below
the relevance floor. -/
def scoreTruthyLow (m : PineconeMatch) : Bool :=
  match m.score with
  | none => false
  | some v => !(v = 0 : Bool) && decide (v < 7/10)

/-- `metadata?.text || metadata?.content || ""` (rag.ts line 132). -/
def matchContent (m : PineconeMatch) : String :=
  if m.metaText ≠ "" then m.metaText
  else if m.metaContent ≠ "" then m.metaContent
  else ""

/-- `metadata?.source || "Medical Database"` (rag.ts line 133). -/
def matchSource (m : PineconeMatch) : String :=
  if m.metaSource ≠ "" then m.metaSource else "Medical Database"

/-- The snippet built for one accepted match:
`"[Source: ${source}]\n${content}\n"`. -/
def snippetOf (m : PineconeMatch) : String :=
  "[Source: " ++ matchSource m ++ "]\n" ++ matchContent m ++ "\n"

/-- The accepted-snippet view of the retrieval loop of rag.ts lines
128-146: the list of snippets whose accumulation survives the relevance
guard, the empty-content guard and the running token cap. -/
def acceptedSnippets : List PineconeMatch → Nat → List String
  | [], _ => []
  | m :: rest, currentTokens =>
    if scoreTruthyLow m then acceptedSnippets rest currentTokens
    else if matchContent m = "" then acceptedSnippets rest currentTokens
    else
      let snippet := snippetOf m
      let snippetTokens := estimateTokens snippet
      if currentTokens + snippetTokens > PINECONE_TOKEN_LIMIT then []
      else snippet :: acceptedSnippets rest (currentTokens + snippetTokens)

/-- The loop of rag.ts lines 125-146 computing `contextText`: each accepted
snippet is appended as `snippet + "\n"`. -/
def retrieveLoopText : List PineconeMatch → String → Nat → String
  | [], contextText, _ => contextText
  | m :: rest, contextText, currentTokens =>
    if scoreTruthyLow m then retrieveLoopText rest contextText currentTokens
    else if matchContent m = "" then retrieveLoopText rest contextText currentTokens
    else
      let snippet := snippetOf m
      let snippetTokens := estimateTokens snippet
      if currentTokens + snippetTokens > PINECONE_TOKEN_LIMIT then contextText
      else retrieveLoopText rest (contextText ++ snippet ++ "\n") (currentTokens + snippetTokens)

/-- `retrieveFromPinecone` (rag.ts lines 106-154), given the matches the
vector store returned: empty-match short-circuit, the formatting loop, and
the final `.trim()`.  The surrounding `try/catch` (returning `""` on any
client error) and the embedding call are external I/O and not modelled. -/
def retrieveFromPinecone (ms : List PineconeMatch) : String :=
  if ms.isEmpty then ""
  else jsTrim (retrieveLoopText ms "" 0)

/-- `availableForHistory` as computed in `handleMessage` (rag.ts lines
460-464): a plain subtraction over `Int`, with no clamping anywhere. -/
def availableForHistory (contextTokens : Nat) : Int :=
  (MAX_TOTAL_TOKENS : Int) - (SYSTEM_PROMPT_TOKENS : Int)
    - (contextTokens : Int) - (CURRENT_MESSAGE_TOKENS : Int)

/-- One transport message as returned by `channel.query` and consumed by
`getConversationHistory`: `text?: string` and the `ai_generated` flag. -/
structure ChannelMsg where
  text : Option String
  aiGenerated : Bool

/-- One provider-request turn `{role, content}` built by the history
assembler. -/
structure Turn where
  role : String
  content : String
deriving DecidableEq

/-- The decode step of rag.ts lines 220-227: `JSON.parse(msg.text)` is the
external builtin, passed in as `jtf` returning the parsed object's `text`
field when the parse succeeds (`none` when `JSON.parse` throws or the
field is absent); `parsed.text || msg.text` falls back to the raw text on
a falsy field. -/
def messageTextOf (jtf : String → Option String) (t : String) : String :=
  match jtf t with
  | some s => if s = "" then t else s
  | none => t

/-- The per-message skip logic of rag.ts lines 217-230: skip falsy
`msg.text`, decode, skip empty-after-trim, classify the role by
`ai_generated`. -/
def decodeMsg (jtf : String → Option String) (m : ChannelMsg) : Option Turn :=
  match m.text with
  | none => none
  | some t =>
    if t = "" then none
    else
      let mt := messageTextOf jtf t
      if mt = "" ∨ jsTrim mt = "" then none
      else some ⟨if m.aiGenerated then "assistant" else "user", mt⟩

/-- All decodable, non-empty turns of a message list, in list order. -/
def decodedTurns (jtf : String → Option String) (ms : List ChannelMsg) : List Turn :=
  ms.filterMap (decodeMsg jtf)

/-- Total token estimate of a list of kept turns. -/
def sumTok (l : List Turn) : Nat :=
  (l.map (fun t => estimateTokens t.content)).sum

/-- The scan of rag.ts lines 216-243 over the newest-first message order:
`history.unshift` prepends each accepted turn, the first
`MIN_HISTORY_MESSAGES` accepted turns bypass the budget, and the `break`
on a budget overrun returns the history built so far. -/
def histGo (jtf : String → Option String) (maxTokens : Int) :
    List ChannelMsg → List Turn → Nat → List Turn
  | [], history, _ => history
  | m :: rest, history, totalTokens =>
    match decodeMsg jtf m with
    | none => histGo jtf maxTokens rest history totalTokens
    | some turn =>
      let msgTokens := estimateTokens turn.content
      if ¬ history.length < MIN_HISTORY_MESSAGES ∧
          (totalTokens + msgTokens : Int) > maxTokens then history
      else histGo jtf maxTokens rest (turn :: history) (totalTokens + msgTokens)

/-- `getConversationHistory` (rag.ts lines 198-251) on the message list the
transport query returned (the query itself, its 20-message limit, and the
catch-all returning `[]` are external).  The messages arrive
oldest-first and the loop walks them in reverse (newest first). -/
def getConversationHistory (jtf : String → Option String) (maxTokens : Int)
    (messages : List ChannelMsg) : List Turn :=
  if messages.isEmpty then []
  else histGo jtf maxTokens messages.reverse [] 0

/-- One streamed tool-call delta (`delta.tool_calls[k]` in rag.ts lines
603-621): optional `index`, optional `id`, and optional fragments of
`function.name` / `function.arguments`. -/
structure ToolCallDelta where
  index : Option Nat
  id : Option String
  fnName : Option String
  fnArgs : Option String

/-- One accumulated tool call (`toolCalls[index]` of rag.ts line 607):
the `type: "function"` tag is constant and omitted. -/
structure AccCall where
  id : String
  fnName : String
  fnArgs : String
deriving DecidableEq

/-- JS `a || b` for an optional string `a` and a default `b`. -/
def jsOr (o : Option String) (d : String) : String :=
  match o with
  | some s => if s = "" then d else s
  | none => d

/-- JS sparse-array read `toolCalls[i]`: `undefined` past the end or on a
hole. -/
def jsGetElem (l : List (Option AccCall)) (i : Nat) : Option AccCall :=
  l.getD i none

/-- JS sparse-array write `toolCalls[i] = v`: extends the array with holes
when `i` is past the end. -/
def jsSetElem (l : List (Option AccCall)) (i : Nat) (v : AccCall) :
    List (Option AccCall) :=
  if i < l.length then l.set i (some v)
  else l ++ List.replicate (i - l.length) none ++ [some v]

/-- Processing of one tool-call delta (rag.ts lines 604-620): create the
entry on first sight of an index (with `tc.id || call_...` defaulting,
the `Date.now()` timestamp component abstracted as `defaultId`), then
append the truthy `name`/`arguments` fragments. -/
def applyToolDelta (defaultId : Nat → String) (l : List (Option AccCall))
    (tc : ToolCallDelta) : List (Option AccCall) :=
  match tc.index with
  | none => l
  | some i =>
    let base : AccCall :=
      match jsGetElem l i with
      | some c => c
      | none => ⟨jsOr tc.id (defaultId i), "", ""⟩
    let b1 : AccCall :=
      match tc.fnName with
      | some s => if s = "" then base else { base with fnName := base.fnName ++ s }
      | none => base
    let b2 : AccCall :=
      match tc.fnArgs with
      | some s => if s = "" then b1 else { b1 with fnArgs := b1.fnArgs ++ s }
      | none => b1
    jsSetElem l i b2

/-- Accumulation of a whole round's tool-call deltas into the `toolCalls`
array. -/
def accumulateToolCalls (defaultId : Nat → String)
    (ds : List ToolCallDelta) : List (Option AccCall) :=
  ds.foldl (applyToolDelta defaultId) []

/-- The concatenation, in arrival order, of the fragments a projection `f`
contributes at index `i` (`""` stands for an absent or empty fragment,
which the source skips and which concatenation ignores alike). -/
def fragsGo (f : ToolCallDelta → Option String) (i : Nat)
    (ds : List ToolCallDelta) (a : String) : String :=
  ds.foldl (fun a d => if d.index = some i then a ++ (f d).getD "" else a) a

def fragsOf (f : ToolCallDelta → Option String) (i : Nat)
    (ds : List ToolCallDelta) : String :=
  fragsGo f i ds ""

/-- The first delta carrying index `i` (the one whose `id` seeds the
accumulated call). -/
def firstAt (i : Nat) (ds : List ToolCallDelta) : Option ToolCallDelta :=
  ds.find? (fun d => d.index = some i)

/-- JS `s.toLowerCase()` (ASCII case folding suffices for the fixed search
terms the source tests). -/
def jsToLower (s : String) : String :=
  String.mk (s.data.map Char.toLower)

/-- Executable contiguous-subsequence test, modelling JS
`String.prototype.includes`. -/
def containsSeg (pat : List Char) : List Char → Bool
  | [] => pat.isEmpty
  | c :: rest => pat.isPrefixOf (c :: rest) || containsSeg pat rest

def jsIncludes (s sub : String) : Bool :=
  containsSeg sub.data s.data

/-- The `isLocationQuery` heuristic of rag.ts lines 641-647. -/
def isLocationQuery (searchQuery : String) : Bool :=
  jsIncludes (jsToLower searchQuery) "near" ||
  jsIncludes (jsToLower searchQuery) "hospital" ||
  jsIncludes (jsToLower searchQuery) "doctor" ||
  jsIncludes (jsToLower searchQuery) "clinic" ||
  jsIncludes (jsToLower searchQuery) "pharmacy" ||
  jsIncludes (jsToLower searchQuery) "medical"

/-- The query enhancement of rag.ts lines 649-652:
`` searchQuery = `${searchQuery} ${locationName} (${lat},${long})` ``
applied exactly when the query is geographically scoped. -/
def enhanceSearchQuery (lat long : Int) (locationName : String)
    (searchQuery : String) : String :=
  if isLocationQuery searchQuery then
    searchQuery ++ " " ++ locationName ++ " (" ++ toString lat ++ ","
      ++ toString long ++ ")"
  else searchQuery

/-- `sendEmergencyAlert` (rag.ts lines 270-286): the Twilio
`messages.create` call is the external `deliver` outcome; the whole body
is wrapped in `try/catch`, so the function never throws and returns
`false` exactly when delivery failed.  The SMS body (which interpolates
the user message and a timestamp) is an unobserved side effect. -/
def sendEmergencyAlert (deliver : Except Unit Unit) (userMessage : String) : Bool :=
  match deliver, userMessage with
  | .ok _, _ => true
  | .error _, _ => false

/-- The object `JSON.parse(toolCall.function.arguments)` yields, restricted
to the one field the dispatcher reads (`functionArgs.query`; `none` models
an absent field). -/
structure ParsedArgs where
  query : Option String
deriving DecidableEq

/-- One `toolResults` entry (rag.ts lines 656-669). -/
structure ToolResult where
  toolCallId : String
  fnName : String
  content : String
deriving DecidableEq

/-- The ambient inputs of one `handleMessage` turn: the external builtins
(`JSON.parse` on tool arguments, the Tavily search adapter, the Twilio
delivery outcome, the `Date.now()`-based default-id generator) and the
turn's envelope data (coordinates, resolved location name, user
message). -/
structure Ctx where
  parseArgs : String → Option ParsedArgs
  search : Option String → String
  deliver : Except Unit Unit
  defaultId : Nat → String
  lat : Option Int
  long : Option Int
  locationName : Option String
  message : String

/-- The query actually forwarded to `searchWeb` for a `tool_search` call
(rag.ts lines 637-655).  Inside the `lat && long && locationName` truthy
guard, a missing `functionArgs.query` makes `searchQuery.toLowerCase()`
raise a TypeError (modelled as `.error`); otherwise the possibly-absent
query is passed through, enhanced when geographically scoped. -/
def searchQueryOf (ctx : Ctx) (args : ParsedArgs) : Except Unit (Option String) :=
  match ctx.lat, ctx.long, ctx.locationName with
  | some la, some lo, some loc =>
    if la ≠ 0 ∧ lo ≠ 0 ∧ loc ≠ "" then
      match args.query with
      | none => .error ()
      | some q => .ok (some (enhanceSearchQuery la lo loc q))
    else .ok args.query
  | _, _, _ => .ok args.query

/-- The tool-dispatch loop of rag.ts lines 631-671 over the accumulated
(sparse) `toolCalls` array, returning the `toolResults` list and the
number of `sendEmergencyAlert` invocations; `.error` models an exception
propagating to the enclosing catch (a hole makes
`toolCall.function.name` raise; malformed arguments make `JSON.parse`
raise).  A call whose name is neither `tool_search` nor `tool_alert`
matches no branch: nothing is recorded for it. -/
def processToolCalls (ctx : Ctx) :
    List (Option AccCall) → Except Unit (List ToolResult × Nat)
  | [] => .ok ([], 0)
  | none :: _ => .error ()
  | some c :: rest =>
    match ctx.parseArgs c.fnArgs with
    | none => .error ()
    | some args =>
      if c.fnName = "tool_search" then
        match searchQueryOf ctx args with
        | .error _ => .error ()
        | .ok q =>
          (processToolCalls ctx rest).map
            (fun rn => (⟨c.id, c.fnName, ctx.search q⟩ :: rn.1, rn.2))
      else if c.fnName = "tool_alert" then
        let _ := sendEmergencyAlert ctx.deliver ctx.message
        (processToolCalls ctx rest).map
          (fun rn => (⟨c.id, c.fnName, "Emergency alert sent successfully."⟩ :: rn.1,
            rn.2 + 1))
      else processToolCalls ctx rest

/-- The number of accumulated entries that name the alert tool. -/
def countAlertCalls (calls : List (Option AccCall)) : Nat :=
  calls.countP (fun oc =>
    match oc with
    | some c => c.fnName = "tool_alert"
    | none => false)

/-- One streamed chunk's delta (rag.ts lines 588-622): a content fragment
(`throttleFired` records whether `Date.now() - lastUpdate > 1000` held at
that moment) or a batch of tool-call deltas. -/
inductive StreamItem where
  | text (s : String) (throttleFired : Bool)
  | toolDeltas (ds : List ToolCallDelta)

/-- One scripted provider round: the stream either completes after
yielding `items`, or raises after yielding them (covering both a failing
`completions.create` call, with `items = []`, and a mid-stream error). -/
inductive RoundScript where
  | ok (items : List StreamItem)
  | throws (items : List StreamItem)

/-- Observable transport effects of one turn: the initial empty
`sendMessage`, each `partialUpdateMessage`, and the `ai_indicator`
events. -/
inductive Ev where
  | msgNew
  | msgUpdate (text : String)
  | aiUpdate (state : String)
  | aiClear
deriving DecidableEq

/-- The per-round stream consumption (rag.ts lines 588-622): empty content
fragments are falsy and skipped whole; a nonempty fragment extends
`currentContent` and, when the throttle window has elapsed, publishes the
partial text `accumulatedText + currentContent`; tool-call deltas are
merged by index.  Returns the round's content, accumulated tool calls,
and emitted events. -/
def runStream (defaultId : Nat → String) (acc : String) :
    List StreamItem → String → List (Option AccCall) → List Ev →
    String × List (Option AccCall) × List Ev
  | [], cur, calls, evs => (cur, calls, evs)
  | .text s fired :: rest, cur, calls, evs =>
    if s = "" then runStream defaultId acc rest cur calls evs
    else
      let cur' := cur ++ s
      let evs' := if fired then evs ++ [Ev.msgUpdate (acc ++ cur')] else evs
      runStream defaultId acc rest cur' calls evs'
  | .toolDeltas ds :: rest, cur, calls, evs =>
    runStream defaultId acc rest cur (ds.foldl (applyToolDelta defaultId) calls) evs

/-- The `while (true)` completion loop of rag.ts lines 573-682, against a
scripted provider.  Returns the emitted events, `some accumulatedText` on
normal exit or `none` when an exception escapes to the catch block, and
the total number of emergency-alert invocations.  An exhausted script
models a provider call that raises.  The request payload rebuilt from
`conversationMessages` is not modelled because every round's reply is
scripted. -/
def runLoop (ctx : Ctx) : List RoundScript → String → List Ev × Option String × Nat
  | [], _ => ([], none, 0)
  | .throws items :: _, acc =>
    let r := runStream ctx.defaultId acc items "" [] []
    (r.2.2, none, 0)
  | .ok items :: rest, acc =>
    let r := runStream ctx.defaultId acc items "" [] []
    if r.2.1.isEmpty then (r.2.2, some (acc ++ r.1), 0)
    else
      match processToolCalls ctx r.2.1 with
      | .error _ => (r.2.2, none, 0)
      | .ok rn =>
        let rec' := runLoop ctx rest acc
        (r.2.2 ++ rec'.1, rec'.2.1, rn.2 + rec'.2.2)

/-- The fixed fallback envelope published on the error path (rag.ts line
704). -/
def fallbackText : String :=
  "\x7b\"lang\": \"en-US\", \"text\": \"I apologize, but I encountered an error. Please try again.\"\x7d"

/-- The observable event trace of one `handleMessage` turn from
`channel.sendMessage` on (rag.ts lines 496-706): empty message created,
THINKING indicator, then the loop; on success the trimmed accumulation is
published and the indicator cleared, on a caught exception an ERROR
indicator is published and the message overwritten with the fallback
envelope. -/
def handleTrace (ctx : Ctx) (script : List RoundScript) : List Ev :=
  let r := runLoop ctx script ""
  [Ev.msgNew, Ev.aiUpdate "AI_STATE_THINKING"] ++
    match r.2.1 with
    | some accFinal => r.1 ++ [Ev.msgUpdate (jsTrim accFinal), Ev.aiClear]
    | none => r.1 ++ [Ev.aiUpdate "AI_STATE_ERROR", Ev.msgUpdate fallbackText]

/-- JS regex `\s` membership check used by the two extraction regexes of
chat-message.tsx (ASCII part). -/
def jsWsR (c : Char) : Bool := jsWsB c

/-- Expect one specific character at the head of the remaining input. -/
def expectChar (c : Char) (l : List Char) : Option (List Char) :=
  match l with
  | [] => none
  | x :: r => if x = c then some r else none

/-- The capture scan of `((?:[^"\\]|\\.)*)"`: at each position either stop
at a bare quote (closing the match), consume a backslash-pair, or consume
one plain character.  Each position admits exactly one alternative, so
the regex engine's backtracking cannot produce any other match; the scan
fails on end-of-input or on a trailing lone backslash. -/
def scanBody : List Char → Option (List Char)
  | [] => none
  | c :: rest =>
    if c = '"' then some []
    else if c = '\\' then
      match rest with
      | [] => none
      | c2 :: rest2 => (scanBody rest2).map (fun cap => c :: c2 :: cap)
    else (scanBody rest).map (fun cap => c :: cap)

/-- The capture scan of `([^"]*)"` in the `lang` regex. -/
def scanLangBody : List Char → Option (List Char)
  | [] => none
  | c :: rest =>
    if c = '"' then some []
    else (scanLangBody rest).map (fun cap => c :: cap)

/-- One attempted match of `/"text"\s*:\s*"((?:[^"\\]|\\.)*)"/` anchored
at the current position. -/
def tryTextAt (cs : List Char) : Option (List Char) :=
  if ['"', 't', 'e', 'x', 't', '"'].isPrefixOf cs then
    (expectChar ':' ((cs.drop 6).dropWhile jsWsR)).bind fun r2 =>
      (expectChar '"' (r2.dropWhile jsWsR)).bind scanBody
  else none

/-- Leftmost-match search for the `text` regex: try each start position in
order, as the JS engine does. -/
def findTextMatch : List Char → Option (List Char)
  | [] => none
  | c :: rest =>
    match tryTextAt (c :: rest) with
    | some cap => some cap
    | none => findTextMatch rest

/-- One attempted match of `/"lang"\s*:\s*"([^"]*)"/` anchored at the
current position. -/
def tryLangAt (cs : List Char) : Option (List Char) :=
  if ['"', 'l', 'a', 'n', 'g', '"'].isPrefixOf cs then
    (expectChar ':' ((cs.drop 6).dropWhile jsWsR)).bind fun r2 =>
      (expectChar '"' (r2.dropWhile jsWsR)).bind scanLangBody
  else none

def findLangMatch : List Char → Option (List Char)
  | [] => none
  | c :: rest =>
    match tryLangAt (c :: rest) with
    | some cap => some cap
    | none => findLangMatch rest

/-- The sequential unescaping of chat-message.tsx lines 63-67: four global
string replacements applied in source order. -/
def jsUnescape (s : String) : String :=
  ((((s.replace "\\n" "\n").replace "\\t" "\t").replace "\\\"" "\"").replace "\\\\" "\\")

/-- `str.startsWith(c)` for a single character, on the character list. -/
def startsWithChar (c : Char) (l : List Char) : Bool :=
  match l with
  | [] => false
  | x :: _ => x = c

/-- The envelope object `JSON.parse(rawText)` yields, restricted to the
two fields the extractor reads. -/
structure ParsedEnv where
  text : Option String
  lang : Option String

/-- JS `parsed.lang || null`. -/
def jsOrNull (o : Option String) : Option String :=
  match o with
  | some s => if s = "" then none else some s
  | none => none

/-- The result record `{text, lang, isComplete}` of
`extractTextFromStreamingJSON`. -/
structure ExtractResult where
  text : String
  lang : Option String
  isComplete : Bool
deriving DecidableEq

/-- `extractTextFromStreamingJSON` (chat-message.tsx lines 43-81).
`jsonParse` is the external `JSON.parse` builtin (`none` when it throws);
when the parse succeeds but `parsed.text` is `undefined`, control falls
through to the regex path, exactly as in the source. -/
def extractTextFromStreamingJSON (jsonParse : String → Option ParsedEnv)
    (rawText : String) : ExtractResult :=
  if rawText = "" then ⟨"", none, false⟩
  else
    let viaParse : Option ExtractResult :=
      match jsonParse rawText with
      | some parsed =>
        match parsed.text with
        | some t => some ⟨t, jsOrNull parsed.lang, true⟩
        | none => none
      | none => none
    match viaParse with
    | some r => r
    | none =>
      match findTextMatch rawText.data with
      | some cap =>
        ⟨jsUnescape (String.mk cap), (findLangMatch rawText.data).map String.mk, false⟩
      | none =>
        if startsWithChar '\x7b' (jsTrimList rawText.data) then ⟨"", none, false⟩
        else ⟨rawText, none, true⟩

/-- JSON string-escaping of a character as the server's serializer emits
it for the response envelope (the characters the claim names; other
printable characters are emitted verbatim). -/
def escChar (c : Char) : List Char :=
  if c = '"' then ['\\', '"']
  else if c = '\\' then ['\\', '\\']
  else if c = '\n' then ['\\', 'n']
  else if c = '\t' then ['\\', 't']
  else [c]

/-- JSON string-escaping of a whole text. -/
def escJsonList : List Char → List Char
  | [] => []
  | c :: rest => escChar c ++ escJsonList rest

/-- A truncated streamed response envelope: the serialized
`{"lang": "<lang>", "text": "<escaped text>` cut somewhere inside the
text value, `p` being the part of the escaped text already received. -/
def fragList (lang : String) (p : List Char) : List Char :=
  ['\x7b', '"', 'l', 'a', 'n', 'g', '"', ':', ' ', '"'] ++ lang.data ++
    ['"', ',', ' ', '"', 't', 'e', 'x', 't', '"', ':', ' ', '"'] ++ p

def mkFrag (lang : String) (p : List Char) : String :=
  String.mk (fragList lang p)

/-! ### Shared helper lemmas -/

lemma length_dropWhile_le' (p : Char → Bool) (l : List Char) :
    (l.dropWhile p).length ≤ l.length := by
  induction l with
  | nil => simp
  | cons c rest ih =>
    by_cases h : p c
    · simp only [List.dropWhile_cons, h, if_true]
      exact ih.trans (Nat.le_succ _)
    · simp [List.dropWhile_cons, h]

lemma jsTrim_length_le (s : String) : (jsTrim s).length ≤ s.length := by
  have h1 : (jsTrimList s.data).length ≤ s.data.length := by
    unfold jsTrimList
    calc (((s.data.dropWhile jsWsB).reverse.dropWhile jsWsB).reverse).length
        = ((s.data.dropWhile jsWsB).reverse.dropWhile jsWsB).length := by
          simp
      _ ≤ (s.data.dropWhile jsWsB).reverse.length := length_dropWhile_le' _ _
      _ = (s.data.dropWhile jsWsB).length := by simp
      _ ≤ s.data.length := length_dropWhile_le' _ _
  calc (jsTrim s).length = (jsTrimList s.data).length := by
        rw [jsTrim, String.length_mk]
    _ ≤ s.data.length := h1
    _ = s.length := rfl

lemma estimateTokens_le_of_length_le {s t : String} (h : s.length ≤ t.length) :
    estimateTokens s ≤ estimateTokens t := by
  unfold estimateTokens
  omega

lemma isPrefixOf_append_self (l t : List Char) : l.isPrefixOf (l ++ t) = true := by
  rw [List.isPrefixOf_iff_prefix]
  exact List.prefix_append l t

lemma containsSeg_of_mid (pre pat post : List Char) :
    containsSeg pat (pre ++ (pat ++ post)) = true := by
  induction pre with
  | nil =>
    cases pat with
    | nil =>
      cases post with
      | nil => rfl
      | cons c r => simp [containsSeg, List.isPrefixOf]
    | cons c r =>
      have h : (c :: r).isPrefixOf ((c :: r) ++ post) = true :=
        isPrefixOf_append_self (c :: r) post
      simp only [List.nil_append, List.cons_append, containsSeg]
      simp only [List.cons_append] at h
      simp [h]
  | cons c pre' ih =>
    simp only [List.cons_append, containsSeg, List.append_eq, ih, Bool.or_true]

lemma jsIncludes_of_data (s pat : String) (pre post : List Char)
    (h : s.data = pre ++ (pat.data ++ post)) : jsIncludes s pat = true := by
  unfold jsIncludes
  rw [h]
  exact containsSeg_of_mid pre pat.data post

/-! ### C4: relevance floor and knowledge token cap -/

/-- C4 (code_bug): a vector-store match whose relevance score is exactly 0
(a falsy JS number) slips past the guard `match.score && match.score < 0.7`
and its chunk is included in the retrieval result, although its relevance
0 is below the 0.7 floor.  The token-cap half of the claim does hold (see
`acceptedSnippets_tokens_le` below, used by the C6 theorem). -/
theorem c4_zero_score_chunk_included :
    retrieveFromPinecone [⟨some 0, "aaaa", "", "S"⟩] = "[Source: S]\naaaa"
      ∧ ((0 : Rat) < 7/10) := by
  constructor
  · rfl
  · norm_num

/-! ### C6: the context budgeter -/

/-- C6 counterexample: `availableForHistory` is a bare subtraction; at
`retrievedTokens = 30000` it evaluates to `-4500 < 0`, so no clamping to
zero exists. -/
theorem c6_counterexample_negative_budget :
    availableForHistory 30000 = -4500 ∧ availableForHistory 30000 < 0 := by
  constructor <;> decide

lemma acceptedSnippets_tokens_le (ms : List PineconeMatch) :
    ∀ cur, cur ≤ PINECONE_TOKEN_LIMIT →
      cur + ((acceptedSnippets ms cur).map estimateTokens).sum ≤ PINECONE_TOKEN_LIMIT := by
  induction ms with
  | nil => intro cur h; simpa [acceptedSnippets] using h
  | cons m rest ih =>
    intro cur h
    by_cases h1 : scoreTruthyLow m = true
    · simpa [acceptedSnippets, h1] using ih cur h
    by_cases h2 : matchContent m = ""
    · simpa [acceptedSnippets, h1, h2] using ih cur h
    by_cases h3 : cur + estimateTokens (snippetOf m) > PINECONE_TOKEN_LIMIT
    · simp [acceptedSnippets, h1, h2, h3]; omega
    · have h4 : cur + estimateTokens (snippetOf m) ≤ PINECONE_TOKEN_LIMIT := by omega
      have h5 := ih (cur + estimateTokens (snippetOf m)) h4
      simp only [acceptedSnippets, h1, Bool.false_eq_true, if_false, h2, h3,
        List.map_cons, List.sum_cons]
      omega

lemma retrieveLoopText_length (ms : List PineconeMatch) :
    ∀ (ctx : String) (cur : Nat),
      (retrieveLoopText ms ctx cur).length
        = ctx.length + ((acceptedSnippets ms cur).map (fun sn => sn.length + 1)).sum := by
  induction ms with
  | nil => intro ctx cur; simp [retrieveLoopText, acceptedSnippets]
  | cons m rest ih =>
    intro ctx cur
    by_cases h1 : scoreTruthyLow m = true
    · simpa [retrieveLoopText, acceptedSnippets, h1] using ih ctx cur
    by_cases h2 : matchContent m = ""
    · simpa [retrieveLoopText, acceptedSnippets, h1, h2] using ih ctx cur
    by_cases h3 : cur + estimateTokens (snippetOf m) > PINECONE_TOKEN_LIMIT
    · simp [retrieveLoopText, acceptedSnippets, h1, h2, h3]
    · simp only [retrieveLoopText, acceptedSnippets, h1, Bool.false_eq_true, if_false,
        h2, h3, List.map_cons, List.sum_cons]
      rw [ih]
      have hnl : ("\n" : String).length = 1 := rfl
      simp only [String.length_append, hnl]
      omega

lemma snippet_estimate_pos (m : PineconeMatch) : 1 ≤ estimateTokens (snippetOf m) := by
  have h9 : ("[Source: " : String).length = 9 := rfl
  have hc : ("]\n" : String).length = 2 := rfl
  have hn : ("\n" : String).length = 1 := rfl
  have h : 9 ≤ (snippetOf m).length := by
    unfold snippetOf
    simp only [String.length_append, h9, hc, hn]
    omega
  unfold estimateTokens
  omega

lemma acceptedSnippets_mem (ms : List PineconeMatch) :
    ∀ cur sn, sn ∈ acceptedSnippets ms cur → ∃ m, sn = snippetOf m := by
  induction ms with
  | nil => intro cur sn h; simp [acceptedSnippets] at h
  | cons m rest ih =>
    intro cur sn h
    by_cases h1 : scoreTruthyLow m = true
    · exact ih cur sn (by simpa [acceptedSnippets, h1] using h)
    by_cases h2 : matchContent m = ""
    · exact ih cur sn (by simpa [acceptedSnippets, h1, h2] using h)
    by_cases h3 : cur + estimateTokens (snippetOf m) > PINECONE_TOKEN_LIMIT
    · simp [acceptedSnippets, h1, h2, h3] at h
    · simp only [acceptedSnippets, h1, Bool.false_eq_true, if_false, h2, h3,
        List.mem_cons] at h
      rcases h with h | h
      · exact ⟨m, h⟩
      · exact ih _ sn h

lemma retrieve_estimate_le (ms : List PineconeMatch) :
    estimateTokens (retrieveFromPinecone ms) ≤ 3750 := by
  unfold retrieveFromPinecone
  by_cases hms : ms.isEmpty = true
  · simp [hms, estimateTokens]
  simp only [hms, Bool.false_eq_true, if_false]
  have hcap : ((acceptedSnippets ms 0).map estimateTokens).sum ≤ PINECONE_TOKEN_LIMIT := by
    have := acceptedSnippets_tokens_le ms 0 (by unfold PINECONE_TOKEN_LIMIT; omega)
    omega
  have hcnt : (acceptedSnippets ms 0).length ≤ ((acceptedSnippets ms 0).map estimateTokens).sum := by
    have h1 : ∀ sn ∈ acceptedSnippets ms 0, 1 ≤ estimateTokens sn := by
      intro sn hsn
      obtain ⟨m, rfl⟩ := acceptedSnippets_mem ms 0 sn hsn
      exact snippet_estimate_pos m
    calc (acceptedSnippets ms 0).length
        = ((acceptedSnippets ms 0).map (fun _ => 1)).sum := by simp
      _ ≤ ((acceptedSnippets ms 0).map estimateTokens).sum := List.sum_le_sum h1
  have hlensum : ((acceptedSnippets ms 0).map (fun sn => sn.length + 1)).sum
      ≤ ((acceptedSnippets ms 0).map (fun sn => 4 * estimateTokens sn + 1)).sum := by
    refine List.sum_le_sum ?_
    intro sn _
    have : sn.length ≤ 4 * estimateTokens sn := by unfold estimateTokens; omega
    omega
  have hsplit : ((acceptedSnippets ms 0).map (fun sn => 4 * estimateTokens sn + 1)).sum
      = 4 * ((acceptedSnippets ms 0).map estimateTokens).sum + (acceptedSnippets ms 0).length := by
    induction acceptedSnippets ms 0 with
    | nil => simp
    | cons a l ihl => simp [ihl]; ring
  have hlen : (retrieveLoopText ms "" 0).length ≤ 15000 := by
    rw [retrieveLoopText_length ms "" 0]
    have h0 : ("" : String).length = 0 := rfl
    have hb : ((acceptedSnippets ms 0).map (fun sn => sn.length + 1)).sum ≤ 15000 := by
      calc ((acceptedSnippets ms 0).map (fun sn => sn.length + 1)).sum
          ≤ ((acceptedSnippets ms 0).map (fun sn => 4 * estimateTokens sn + 1)).sum := hlensum
        _ = 4 * ((acceptedSnippets ms 0).map estimateTokens).sum
              + (acceptedSnippets ms 0).length := hsplit
        _ ≤ 4 * PINECONE_TOKEN_LIMIT + PINECONE_TOKEN_LIMIT := by
            have := hcnt.trans hcap
            unfold PINECONE_TOKEN_LIMIT at *
            omega
        _ = 15000 := by unfold PINECONE_TOKEN_LIMIT; omega
    omega
  have htrim : (jsTrim (retrieveLoopText ms "" 0)).length ≤ 15000 :=
    (jsTrim_length_le _).trans hlen
  unfold estimateTokens
  omega

/-- C6 (amended): the budgeter computes the plain difference
`MAX_TOTAL_TOKENS - SYSTEM_PROMPT_TOKENS - retrievedTokens -
CURRENT_MESSAGE_TOKENS` with no clamping; the result can go negative only
for `retrievedTokens > 25500`, and every retrieval result produced by
`retrieveFromPinecone` estimates to at most 3750 tokens, so within the
program the allowance is in fact always positive. -/
theorem c6_budget_formula_and_positivity :
    (∀ contextTokens : Nat,
      availableForHistory contextTokens
        = (MAX_TOTAL_TOKENS : Int) - (SYSTEM_PROMPT_TOKENS : Int)
            - (contextTokens : Int) - (CURRENT_MESSAGE_TOKENS : Int))
    ∧ (∀ contextTokens : Nat, contextTokens ≤ 25500 →
        0 ≤ availableForHistory contextTokens)
    ∧ (∀ ms : List PineconeMatch,
        0 < availableForHistory (estimateTokens (retrieveFromPinecone ms))) := by
  refine ⟨fun _ => rfl, ?_, ?_⟩
  · intro contextTokens h
    unfold availableForHistory MAX_TOTAL_TOKENS SYSTEM_PROMPT_TOKENS CURRENT_MESSAGE_TOKENS
    omega
  · intro ms
    have := retrieve_estimate_le ms
    unfold availableForHistory MAX_TOTAL_TOKENS SYSTEM_PROMPT_TOKENS CURRENT_MESSAGE_TOKENS
    omega

/-- Witness for `c6_budget_formula_and_positivity`: the clamping-free bound
instantiated at a concrete retrieved-token figure. -/
theorem c6_budget_witness : 0 ≤ availableForHistory 100 :=
  c6_budget_formula_and_positivity.2.1 100 (by norm_num)

/-! ### C3: location-scoped search queries -/

/-- C3 counterexample: for a geographically scoped query with a resolved
place name and truthy coordinates, the query forwarded to the search
provider DOES contain the raw latitude/longitude digits, appended in
parentheses after the place string. -/
theorem c3_counterexample_raw_coords_forwarded :
    enhanceSearchQuery 12 77 "Bengaluru, Karnataka, India" "hospital near me"
        = "hospital near me Bengaluru, Karnataka, India (12,77)"
      ∧ jsIncludes
          (enhanceSearchQuery 12 77 "Bengaluru, Karnataka, India" "hospital near me")
          "(12,77)" = true := by
  constructor
  · decide
  · decide

/-- C3 (amended): whenever the enhancement fires (valid location and a
geographically scoped query), the forwarded query is
`` `${query} ${locationName} (${lat},${long})` ``: it contains the
resolved place string AND the raw coordinate digits; a non-scoped query
is forwarded unchanged. -/
theorem c3_enhanced_query_place_and_coords (lat long : Int)
    (locationName searchQuery : String) :
    (isLocationQuery searchQuery = true →
      enhanceSearchQuery lat long locationName searchQuery
          = searchQuery ++ " " ++ locationName ++ " (" ++ toString lat ++ ","
              ++ toString long ++ ")"
        ∧ jsIncludes (enhanceSearchQuery lat long locationName searchQuery)
            locationName = true
        ∧ jsIncludes (enhanceSearchQuery lat long locationName searchQuery)
            ("(" ++ toString lat ++ "," ++ toString long ++ ")") = true)
    ∧ (isLocationQuery searchQuery = false →
      enhanceSearchQuery lat long locationName searchQuery = searchQuery) := by
  constructor
  · intro hloc
    have heq : enhanceSearchQuery lat long locationName searchQuery
        = searchQuery ++ " " ++ locationName ++ " (" ++ toString lat ++ ","
            ++ toString long ++ ")" := by
      unfold enhanceSearchQuery
      rw [if_pos hloc]
    have hsp : (" " : String).data = [' '] := rfl
    have hlp : (" (" : String).data = [' ', '('] := rfl
    have hcm : ("," : String).data = [','] := rfl
    have hrp : (")" : String).data = [')'] := rfl
    have hop : ("(" : String).data = ['('] := rfl
    refine ⟨heq, ?_, ?_⟩
    · refine jsIncludes_of_data _ locationName (searchQuery.data ++ [' '])
        ([' ', '('] ++ (toString lat).data ++ [','] ++ (toString long).data ++ [')']) ?_
      rw [heq]
      simp [String.data_append, hsp, hlp, hcm, hrp]
    · refine jsIncludes_of_data _ ("(" ++ toString lat ++ "," ++ toString long ++ ")")
        (searchQuery.data ++ [' '] ++ locationName.data ++ [' ']) [] ?_
      rw [heq]
      simp [String.data_append, hsp, hlp, hcm, hrp, hop]
  · intro hloc
    unfold enhanceSearchQuery
    rw [if_neg (by simp [hloc])]

/-- Witness for `c3_enhanced_query_place_and_coords` at a concrete scoped
query. -/
theorem c3_enhanced_query_witness :
    isLocationQuery "clinic close by" = true
      ∧ jsIncludes (enhanceSearchQuery 10 20 "Springfield" "clinic close by")
          "Springfield" = true :=
  ⟨by decide, ((c3_enhanced_query_place_and_coords 10 20 "Springfield"
      "clinic close by").1 (by decide)).2.1⟩

/-! ### C9: unknown tool names -/

/-- A concrete ambient context for the counterexample evaluations: all
external calls are stubbed with fixed outcomes. -/
def ctxC : Ctx :=
  ⟨fun _ => some ⟨none⟩, fun _ => "", .ok (), fun _ => "", none, none, none, "m"⟩

/-- C9 counterexample: a parsed tool call named `tool_weather` (neither
`tool_search` nor `tool_alert`) produces an EMPTY tool-result list — no
synthetic "tool unavailable" result is recorded — while the loop is
indeed not aborted (the dispatch returns `.ok`, not an exception). -/
theorem c9_counterexample_no_synthetic_result :
    processToolCalls ctxC [some ⟨"id1", "tool_weather", "\x7b\x7d"⟩] = .ok ([], 0)
      ∧ (.ok ([], 0) : Except Unit (List ToolResult × Nat)) ≠ .error () := by
  constructor
  · rfl
  · intro h
    exact Except.noConfusion h

/-- C9 (amended): a call whose accumulated name is neither `tool_search`
nor `tool_alert` is silently skipped — the dispatch records no tool
result for it and continues with the remaining calls unchanged (the loop
is not aborted, but no "tool unavailable" result is produced either). -/
theorem c9_unknown_tool_silently_skipped (ctx : Ctx) (c : AccCall)
    (rest : List (Option AccCall)) (a : ParsedArgs)
    (hparse : ctx.parseArgs c.fnArgs = some a)
    (hs : c.fnName ≠ "tool_search") (ha : c.fnName ≠ "tool_alert") :
    processToolCalls ctx (some c :: rest) = processToolCalls ctx rest := by
  conv_lhs => unfold processToolCalls
  rw [hparse]
  simp only [hs, ha, if_false]

/-- Witness for `c9_unknown_tool_silently_skipped`. -/
theorem c9_unknown_tool_witness :
    processToolCalls ctxC [some ⟨"i", "tool_x", "z"⟩] = processToolCalls ctxC [] :=
  c9_unknown_tool_silently_skipped ctxC ⟨"i", "tool_x", "z"⟩ [] ⟨none⟩ rfl
    (by decide) (by decide)

/-! ### C10: alert delivery outcome is ignored -/

/-- C10: `sendEmergencyAlert` never throws — it returns `true` on
delivery success and `false` on delivery failure — and the completion
loop ignores that boolean: the dispatch result is identical for any two
delivery outcomes, and the tool-result content fed back to the provider
for a `tool_alert` call is always the fixed string
`"Emergency alert sent successfully."`. -/
theorem c10_alert_never_throws_result_fixed :
    (∀ m : String, sendEmergencyAlert (.ok ()) m = true
        ∧ sendEmergencyAlert (.error ()) m = false)
    ∧ (∀ (ctx : Ctx) (d₁ d₂ : Except Unit Unit) (calls : List (Option AccCall)),
        processToolCalls { ctx with deliver := d₁ } calls
          = processToolCalls { ctx with deliver := d₂ } calls)
    ∧ (∀ (ctx : Ctx) (c : AccCall) (rest : List (Option AccCall)) (a : ParsedArgs),
        ctx.parseArgs c.fnArgs = some a → c.fnName = "tool_alert" →
        processToolCalls ctx (some c :: rest)
          = (processToolCalls ctx rest).map
              (fun rn => (⟨c.id, c.fnName, "Emergency alert sent successfully."⟩ :: rn.1,
                rn.2 + 1))) := by
  refine ⟨fun m => ⟨rfl, rfl⟩, ?_, ?_⟩
  · intro ctx d₁ d₂ calls
    induction calls with
    | nil => rfl
    | cons hd tl ih =>
      cases hd with
      | none => rfl
      | some c =>
        have hsq : searchQueryOf { ctx with deliver := d₁ }
            = searchQueryOf { ctx with deliver := d₂ } := rfl
        conv_lhs => unfold processToolCalls
        conv_rhs => unfold processToolCalls
        cases hp : ctx.parseArgs c.fnArgs with
        | none => rfl
        | some a => simp only [hsq, ih]
  · intro ctx c rest a hparse halert
    conv_lhs => unfold processToolCalls
    rw [hparse]
    have hns : c.fnName ≠ "tool_search" := by rw [halert]; decide
    simp only [hns, if_false, halert, if_pos]
    rw [if_neg (by decide : ¬ ("tool_alert" = "tool_search"))]

/-- Witness for `c10_alert_never_throws_result_fixed`: the fixed result
content at a concrete alert call, with the dispatch equation discharged
concretely. -/
theorem c10_alert_witness :
    processToolCalls ctxC [some ⟨"a", "tool_alert", "z"⟩]
      = .ok ([⟨"a", "tool_alert", "Emergency alert sent successfully."⟩], 1) := by
  have h := c10_alert_never_throws_result_fixed.2.2 ctxC ⟨"a", "tool_alert", "z"⟩ []
    ⟨none⟩ rfl rfl
  rw [h]
  rfl

/-! ### C8: tool-call delta reassembly -/

lemma fragsGo_factor (f : ToolCallDelta → Option String) (i : Nat) :
    ∀ (ds : List ToolCallDelta) (a : String),
      fragsGo f i ds a = a ++ fragsGo f i ds "" := by
  intro ds
  induction ds with
  | nil => intro a; simp [fragsGo, String.append_empty]
  | cons d rest ih =>
    intro a
    by_cases hd : d.index = some i
    · unfold fragsGo
      simp only [List.foldl_cons, hd, if_pos]
      rw [show (List.foldl (fun a d => if d.index = some i then a ++ ((f d).getD "") else a)
            (a ++ (f d).getD "") rest) = fragsGo f i rest (a ++ (f d).getD "") from rfl,
        show (List.foldl (fun a d => if d.index = some i then a ++ ((f d).getD "") else a)
            ("" ++ (f d).getD "") rest) = fragsGo f i rest ("" ++ (f d).getD "") from rfl,
        ih (a ++ (f d).getD ""), ih ("" ++ (f d).getD "")]
      rw [String.empty_append, String.append_assoc]
    · unfold fragsGo
      simp only [List.foldl_cons, hd, if_false]
      exact ih a

lemma fragsOf_cons (f : ToolCallDelta → Option String) (i : Nat)
    (d : ToolCallDelta) (ds : List ToolCallDelta) :
    fragsOf f i (d :: ds)
      = (if d.index = some i then (f d).getD "" else "") ++ fragsOf f i ds := by
  unfold fragsOf
  by_cases hd : d.index = some i
  · rw [show fragsGo f i (d :: ds) "" = fragsGo f i ds ("" ++ (f d).getD "") from by
      unfold fragsGo; simp [hd]]
    rw [fragsGo_factor f i ds ("" ++ (f d).getD ""), String.empty_append, if_pos hd]
  · rw [show fragsGo f i (d :: ds) "" = fragsGo f i ds "" from by
      unfold fragsGo; simp [hd]]
    rw [if_neg hd, String.empty_append]

lemma jsGet_jsSet_self (l : List (Option AccCall)) (i : Nat) (v : AccCall) :
    jsGetElem (jsSetElem l i v) i = some v := by
  unfold jsGetElem jsSetElem
  by_cases h : i < l.length
  · simp [h]
  · rw [if_neg h]
    have hge : l.length ≤ i := Nat.le_of_not_lt h
    rw [List.getD_eq_getElem?_getD, List.append_assoc,
      List.getElem?_append_right hge]
    have : (List.replicate (i - l.length) (none : Option AccCall)
        ++ [some v])[i - l.length]? = some (some v) := by
      have hcl := List.getElem?_concat_length
        (List.replicate (i - l.length) (none : Option AccCall)) (some v)
      rw [List.length_replicate] at hcl
      exact hcl
    rw [this]
    rfl

lemma jsGet_jsSet_ne (l : List (Option AccCall)) (i j : Nat) (v : AccCall)
    (hij : i ≠ j) : jsGetElem (jsSetElem l j v) i = jsGetElem l i := by
  unfold jsGetElem jsSetElem
  by_cases h : j < l.length
  · rw [if_pos h]
    simp [List.getElem?_set_ne (Ne.symm hij)]
  · rw [if_neg h]
    have hge : l.length ≤ j := Nat.le_of_not_lt h
    by_cases hi : i < l.length
    · rw [List.getD_eq_getElem?_getD, List.getD_eq_getElem?_getD,
        List.append_assoc, List.getElem?_append_left hi]
    · have hgei : l.length ≤ i := Nat.le_of_not_lt hi
      rw [List.getD_eq_getElem?_getD, List.getD_eq_getElem?_getD,
        List.append_assoc, List.getElem?_append_right hgei,
        List.getElem?_eq_none hgei]
      have : (List.replicate (j - l.length) (none : Option AccCall)
          ++ [some v])[i - l.length]?.getD none = none := by
        by_cases hlt : i - l.length < j - l.length
        · have h4 : i - l.length < (List.replicate (j - l.length)
              (none : Option AccCall)).length := by simpa using hlt
          rw [List.getElem?_append_left h4, List.getElem?_replicate_of_lt hlt]
          rfl
        · have h1 : (List.replicate (j - l.length) (none : Option AccCall)).length
              ≤ i - l.length := by simp; omega
          rw [List.getElem?_append_right h1]
          simp only [List.length_replicate]
          have h3 : ([some v] : List (Option AccCall)).length
              ≤ i - l.length - (j - l.length) := by
            simp only [List.length_cons, List.length_nil]
            omega
          rw [List.getElem?_eq_none h3]
          rfl
      rw [this]
      rfl

/-- The per-index content of one delta's contribution, as the accumulator
appends it. -/
lemma name_step (base : AccCall) (tc : ToolCallDelta) :
    (match tc.fnName with
      | some s => if s = "" then base else { base with fnName := base.fnName ++ s }
      | none => base).fnName = base.fnName ++ (tc.fnName).getD "" := by
  cases h : tc.fnName with
  | none => simp [String.append_empty]
  | some s =>
    by_cases hs : s = ""
    · simp [hs, String.append_empty]
    · simp [hs]

/-- Characterisation of the per-index accumulator: after folding any delta
list over any starting array, the entry at index `i` is determined by the
starting entry and the in-order concatenation of the fragments carrying
index `i`; deltas at other indices are invisible. -/
lemma accumulate_characterization (D : Nat → String) :
    ∀ (ds : List ToolCallDelta) (l : List (Option AccCall)) (i : Nat),
      jsGetElem (ds.foldl (applyToolDelta D) l) i =
        match jsGetElem l i with
        | some c => some ⟨c.id, c.fnName ++ fragsOf (fun d => d.fnName) i ds,
            c.fnArgs ++ fragsOf (fun d => d.fnArgs) i ds⟩
        | none => (firstAt i ds).map (fun d0 =>
            ⟨jsOr d0.id (D i), fragsOf (fun d => d.fnName) i ds,
              fragsOf (fun d => d.fnArgs) i ds⟩) := by
  intro ds
  induction ds with
  | nil =>
    intro l i
    simp only [List.foldl_nil]
    cases h : jsGetElem l i with
    | none => simp [firstAt]
    | some c => simp [fragsOf, fragsGo, String.append_empty]
  | cons d rest ih =>
    intro l i
    rw [List.foldl_cons, ih (applyToolDelta D l d) i,
      fragsOf_cons (fun d => d.fnName) i d rest,
      fragsOf_cons (fun d => d.fnArgs) i d rest]
    cases hidx : d.index with
    | none =>
      have hl : applyToolDelta D l d = l := by unfold applyToolDelta; rw [hidx]
      rw [hl]
      have hfa : firstAt i (d :: rest) = firstAt i rest := by
        unfold firstAt
        rw [List.find?_cons_of_neg _ (by simp [hidx])]
      rw [hfa]
      simp [String.empty_append]
    | some j =>
      by_cases hij : i = j
      · subst hij
        have hget : jsGetElem (applyToolDelta D l d) i
            = some (let base : AccCall :=
                match jsGetElem l i with
                | some c => c
                | none => ⟨jsOr d.id (D i), "", ""⟩
              let b1 : AccCall :=
                match d.fnName with
                | some s => if s = "" then base
                    else { base with fnName := base.fnName ++ s }
                | none => base
              match d.fnArgs with
              | some s => if s = "" then b1
                  else { b1 with fnArgs := b1.fnArgs ++ s }
              | none => b1) := by
          unfold applyToolDelta
          rw [hidx]
          exact jsGet_jsSet_self l i _
        rw [hget]
        have hfa : firstAt i (d :: rest) = some d := by
          unfold firstAt
          exact List.find?_cons_of_pos _ (by simp [hidx])
        rw [hfa]
        cases hl : jsGetElem l i with
        | some c =>
          cases hn : d.fnName with
          | none =>
            cases ha : d.fnArgs with
            | none => simp [String.append_empty, String.append_assoc]
            | some s =>
              by_cases hs : s = "" <;>
                simp [hs, String.append_empty, String.append_assoc]
          | some s =>
            by_cases hs : s = "" <;>
              cases ha : d.fnArgs with
              | none => simp [hs, String.append_empty, String.append_assoc]
              | some s2 =>
                by_cases hs2 : s2 = "" <;>
                  simp [hs, hs2, String.append_empty, String.append_assoc]
        | none =>
          cases hn : d.fnName with
          | none =>
            cases ha : d.fnArgs with
            | none => simp [String.append_empty, String.empty_append]
            | some s =>
              by_cases hs : s = "" <;>
                simp [hs, String.append_empty, String.empty_append]
          | some s =>
            by_cases hs : s = "" <;>
              cases ha : d.fnArgs with
              | none => simp [hs, String.append_empty, String.empty_append]
              | some s2 =>
                by_cases hs2 : s2 = "" <;>
                  simp [hs, hs2, String.append_empty, String.empty_append]
      · have hget : jsGetElem (applyToolDelta D l d) i = jsGetElem l i := by
          unfold applyToolDelta
          rw [hidx]
          exact jsGet_jsSet_ne l i j _ hij
        rw [hget]
        have hfa : firstAt i (d :: rest) = firstAt i rest := by
          unfold firstAt
          rw [List.find?_cons_of_neg _ (by simp [hidx, Ne.symm hij])]
        rw [hfa]
        have hji : j ≠ i := Ne.symm hij
        simp [hji, String.empty_append]

/-- C8: the per-index accumulator reassembles each call exactly.  For
every delta stream and every index, the accumulated entry at that index
is `none` when no delta carried the index, and otherwise carries the
first such delta's id (or the generated default) together with the
in-order concatenation of that index's `name` and `arguments` fragments —
independent of how the fragments were sized and of how deltas of other
indices were interleaved, and equal to a whole-call delivery of the same
concatenations. -/
theorem c8_delta_reassembly (defaultId : Nat → String)
    (ds : List ToolCallDelta) (i : Nat) :
    jsGetElem (accumulateToolCalls defaultId ds) i =
      (firstAt i ds).map (fun d0 =>
        ⟨jsOr d0.id (defaultId i), fragsOf (fun d => d.fnName) i ds,
          fragsOf (fun d => d.fnArgs) i ds⟩) := by
  unfold accumulateToolCalls
  rw [accumulate_characterization defaultId ds [] i]
  rfl

/-! ### C2: alert invocations per turn -/

/-- The delta stream of the C2 counterexample: two complete alert calls at
indices 0 and 1, each delivered whole. -/
def dsTwoAlerts : List ToolCallDelta :=
  [⟨some 0, some "a1", some "tool_alert", some "\x7b\x7d"⟩,
   ⟨some 1, some "a2", some "tool_alert", some "\x7b\x7d"⟩]

/-- C2 counterexample: when the model streams alert-naming tool-call
deltas at two distinct indices, the accumulated round carries two
`tool_alert` calls and `sendEmergencyAlert` is invoked twice in the one
turn, not exactly once. -/
theorem c2_counterexample_two_alert_invocations :
    processToolCalls ctxC (accumulateToolCalls ctxC.defaultId dsTwoAlerts)
        = .ok ([⟨"a1", "tool_alert", "Emergency alert sent successfully."⟩,
                ⟨"a2", "tool_alert", "Emergency alert sent successfully."⟩], 2)
      ∧ (2 : Nat) ≠ 1 := by
  constructor
  · rfl
  · decide

lemma processToolCalls_alert_count (ctx : Ctx) :
    ∀ (calls : List (Option AccCall)) (res : List ToolResult) (n : Nat),
      processToolCalls ctx calls = .ok (res, n) → n = countAlertCalls calls := by
  intro calls
  induction calls with
  | nil =>
    intro res n h
    unfold processToolCalls at h
    simp only [Except.ok.injEq, Prod.mk.injEq] at h
    simp [countAlertCalls, ← h.2]
  | cons hd tl ih =>
    intro res n h
    cases hd with
    | none =>
      unfold processToolCalls at h
      exact absurd h (by simp)
    | some c =>
      unfold processToolCalls at h
      cases hp : ctx.parseArgs c.fnArgs with
      | none =>
        rw [hp] at h
        exact absurd h (by simp)
      | some a =>
        rw [hp] at h
        dsimp only at h
        by_cases hse : c.fnName = "tool_search"
        · rw [if_pos hse] at h
          cases hq : searchQueryOf ctx a with
          | error e =>
            rw [hq] at h
            exact absurd h (by simp)
          | ok q =>
            rw [hq] at h
            cases hrec : processToolCalls ctx tl with
            | error e =>
              rw [hrec] at h
              exact absurd h (by simp [Except.map])
            | ok rn =>
              rw [hrec] at h
              simp only [Except.map, Except.ok.injEq, Prod.mk.injEq] at h
              have hn : n = rn.2 := h.2.symm
              rw [hn, ih rn.1 rn.2 (by rw [hrec])]
              unfold countAlertCalls
              rw [List.countP_cons]
              simp [hse]
        · by_cases hal : c.fnName = "tool_alert"
          · rw [if_neg hse, if_pos hal] at h
            cases hrec : processToolCalls ctx tl with
            | error e =>
              rw [hrec] at h
              exact absurd h (by simp [Except.map])
            | ok rn =>
              rw [hrec] at h
              simp only [Except.map, Except.ok.injEq, Prod.mk.injEq] at h
              have hn : n = rn.2 + 1 := h.2.symm
              rw [hn, ih rn.1 rn.2 (by rw [hrec])]
              unfold countAlertCalls
              rw [List.countP_cons]
              simp [hal]
          · rw [if_neg hse, if_neg hal] at h
            rw [ih res n h]
            unfold countAlertCalls
            rw [List.countP_cons]
            simp [hse, hal]

lemma accumulate_single_index (D : Nat → String) :
    ∀ (ds : List ToolCallDelta) (l : List (Option AccCall)),
      (l = [] ∨ ∃ oc : AccCall, l = [some oc]) →
      (∀ d ∈ ds, d.index = some 0) →
      (ds.foldl (applyToolDelta D) l = [] ∧ l = [])
        ∨ ∃ oc : AccCall, ds.foldl (applyToolDelta D) l = [some oc] := by
  intro ds
  induction ds with
  | nil =>
    intro l hl _
    rcases hl with h | ⟨oc, h⟩
    · exact Or.inl ⟨by simp [h], h⟩
    · exact Or.inr ⟨oc, by simp [h]⟩
  | cons d rest ih =>
    intro l hl hall
    have hd0 : d.index = some 0 := hall d (by simp)
    have hstep : ∃ v : AccCall, applyToolDelta D l d = [some v] := by
      rcases hl with h | ⟨oc, h⟩
      · subst h
        unfold applyToolDelta
        rw [hd0]
        exact ⟨_, rfl⟩
      · subst h
        unfold applyToolDelta
        rw [hd0]
        exact ⟨_, rfl⟩
    obtain ⟨v, hv⟩ := hstep
    rw [List.foldl_cons, hv]
    rcases ih [some v] (Or.inr ⟨v, rfl⟩) (fun d hd => hall d (by simp [hd])) with
      ⟨h1, h2⟩ | h
    · exact absurd h2 (by simp)
    · exact Or.inr h

lemma single_alert_dispatch (ctx : Ctx) (ds : List ToolCallDelta) (a : ParsedArgs)
    (hall : ∀ d ∈ ds, d.index = some 0)
    (hname : fragsOf (fun d => d.fnName) 0 ds = "tool_alert")
    (hparse : ctx.parseArgs (fragsOf (fun d => d.fnArgs) 0 ds) = some a) :
    ∃ oc : AccCall, accumulateToolCalls ctx.defaultId ds = [some oc]
      ∧ processToolCalls ctx (accumulateToolCalls ctx.defaultId ds)
          = .ok ([⟨oc.id, "tool_alert", "Emergency alert sent successfully."⟩], 1) := by
  have hne : ds ≠ [] := by
    intro h
    rw [h] at hname
    exact absurd hname (by decide)
  obtain ⟨oc, hoc⟩ : ∃ oc : AccCall,
      accumulateToolCalls ctx.defaultId ds = [some oc] := by
    rcases hds : ds with _ | ⟨d, rest⟩
    · exact absurd hds hne
    · have hd0 : d.index = some 0 := hall d (by simp [hds])
      obtain ⟨v, hv⟩ : ∃ v : AccCall,
          applyToolDelta ctx.defaultId [] d = [some v] := by
        unfold applyToolDelta
        rw [hd0]
        exact ⟨_, rfl⟩
      have hrest := accumulate_single_index ctx.defaultId rest [some v]
        (Or.inr ⟨v, rfl⟩) (fun d2 hd2 => hall d2 (by simp [hds, hd2]))
      unfold accumulateToolCalls
      rw [List.foldl_cons, hv]
      rcases hrest with ⟨_, h2⟩ | h
      · exact absurd h2 (by simp)
      · exact h
  have hchar := accumulate_characterization ctx.defaultId ds [] 0
  rw [show (ds.foldl (applyToolDelta ctx.defaultId) []) =
      accumulateToolCalls ctx.defaultId ds from rfl, hoc] at hchar
  have hget : jsGetElem [some oc] 0 = some oc := rfl
  rw [hget] at hchar
  have hnil : jsGetElem ([] : List (Option AccCall)) 0 = none := rfl
  rw [hnil] at hchar
  obtain ⟨d0, hfind, hoceq⟩ : ∃ d0, firstAt 0 ds = some d0 ∧
      oc = ⟨jsOr d0.id (ctx.defaultId 0), fragsOf (fun d => d.fnName) 0 ds,
        fragsOf (fun d => d.fnArgs) 0 ds⟩ := by
    cases hf : firstAt 0 ds with
    | none => rw [hf] at hchar; exact absurd hchar (by simp)
    | some d0 =>
      rw [hf] at hchar
      simp only [Option.map_some', Option.some.injEq] at hchar
      exact ⟨d0, rfl, hchar⟩
  have hfn : oc.fnName = "tool_alert" := by rw [hoceq, hname]
  have hfa : oc.fnArgs = fragsOf (fun d => d.fnArgs) 0 ds := by rw [hoceq]
  refine ⟨oc, hoc, ?_⟩
  rw [hoc]
  conv_lhs => unfold processToolCalls
  rw [hfa, hparse]
  have hns : oc.fnName ≠ "tool_search" := by rw [hfn]; decide
  simp only [hns, if_false, hfn, if_pos]
  rw [if_neg (by decide : ¬ ("tool_alert" = "tool_search"))]
  rfl

lemma runLoop_single_text_round (ctx : Ctx) (ans : String) (fired : Bool) :
    (runLoop ctx [.ok [.text ans fired]] "").2 = (some ans, 0) := by
  by_cases hans : ans = ""
  · subst hans
    rfl
  · conv_lhs => unfold runLoop
    have hs : runStream ctx.defaultId "" [.text ans fired] "" [] []
        = ("" ++ ans, [], if fired then [Ev.msgUpdate ("" ++ ("" ++ ans))] else []) := by
      unfold runStream
      rw [if_neg hans]
      rfl
    rw [hs]
    dsimp only
    simp [String.empty_append]

lemma runLoop_alert_then_answer (ctx : Ctx) (ds : List ToolCallDelta)
    (a : ParsedArgs) (ans : String) (fired : Bool)
    (hall : ∀ d ∈ ds, d.index = some 0)
    (hname : fragsOf (fun d => d.fnName) 0 ds = "tool_alert")
    (hparse : ctx.parseArgs (fragsOf (fun d => d.fnArgs) 0 ds) = some a) :
    (runLoop ctx [.ok [.toolDeltas ds], .ok [.text ans fired]] "").2
      = (some ans, 1) := by
  obtain ⟨oc, hoc, hdisp⟩ := single_alert_dispatch ctx ds a hall hname hparse
  conv_lhs => unfold runLoop
  have hs : runStream ctx.defaultId "" [.toolDeltas ds] "" [] []
      = ("", accumulateToolCalls ctx.defaultId ds, []) := rfl
  rw [hs]
  dsimp only
  rw [hoc]
  rw [if_neg (by simp)]
  rw [hoc] at hdisp
  rw [hdisp]
  dsimp only
  have h2 := runLoop_single_text_round ctx ans fired
  rw [show (runLoop ctx [.ok [.text ans fired]] "").2.1
      = ((runLoop ctx [.ok [.text ans fired]] "").2).1 from rfl]
  rw [show (runLoop ctx [.ok [.text ans fired]] "").2.2
      = ((runLoop ctx [.ok [.text ans fired]] "").2).2 from rfl]
  rw [h2]
  rfl

/-- C2 (amended): `sendEmergencyAlert` is invoked exactly once per
ACCUMULATED `tool_alert` call — the invocation count of a round equals
the number of accumulated calls naming `tool_alert`, so it is never
invoked speculatively, and a single logical alert call split into
arbitrarily many index-0 deltas triggers exactly one invocation (two
distinct indexed alert calls, however, trigger two — see the
counterexample); after the alert round the loop still converges on a
final answer. -/
theorem c2_alert_once_per_accumulated_call :
    (∀ (ctx : Ctx) (calls : List (Option AccCall)) (res : List ToolResult) (n : Nat),
        processToolCalls ctx calls = .ok (res, n) → n = countAlertCalls calls)
    ∧ (∀ (ctx : Ctx) (ds : List ToolCallDelta) (a : ParsedArgs),
        (∀ d ∈ ds, d.index = some 0) →
        fragsOf (fun d => d.fnName) 0 ds = "tool_alert" →
        ctx.parseArgs (fragsOf (fun d => d.fnArgs) 0 ds) = some a →
        ∃ res, processToolCalls ctx (accumulateToolCalls ctx.defaultId ds)
          = .ok (res, 1))
    ∧ (∀ (ctx : Ctx) (ds : List ToolCallDelta) (a : ParsedArgs)
          (ans : String) (fired : Bool),
        (∀ d ∈ ds, d.index = some 0) →
        fragsOf (fun d => d.fnName) 0 ds = "tool_alert" →
        ctx.parseArgs (fragsOf (fun d => d.fnArgs) 0 ds) = some a →
        (runLoop ctx [.ok [.toolDeltas ds], .ok [.text ans fired]] "").2
          = (some ans, 1)) := by
  refine ⟨processToolCalls_alert_count, ?_, ?_⟩
  · intro ctx ds a hall hname hparse
    obtain ⟨oc, _, hdisp⟩ := single_alert_dispatch ctx ds a hall hname hparse
    exact ⟨_, hdisp⟩
  · intro ctx ds a ans fired hall hname hparse
    exact runLoop_alert_then_answer ctx ds a ans fired hall hname hparse

/-- A single alert call fragmented into two index-0 deltas, for the C2
witness. -/
def dsAlertFrag : List ToolCallDelta :=
  [⟨some 0, some "a1", some "tool_al", none⟩,
   ⟨some 0, none, some "ert", some "\x7b\x7d"⟩]

/-- Witness for `c2_alert_once_per_accumulated_call`: a fragmented single
alert call yields exactly one invocation and the turn still converges on
the scripted final answer. -/
theorem c2_alert_witness :
    (runLoop ctxC [.ok [.toolDeltas dsAlertFrag], .ok [.text "ok" false]] "").2
      = (some "ok", 1) :=
  c2_alert_once_per_accumulated_call.2.2 ctxC dsAlertFrag ⟨none⟩ "ok" false
    (by decide) (by decide) rfl

/-! ### C1: exactly one final publish per turn -/

lemma runStream_events (D : Nat → String) (acc : String) :
    ∀ (items : List StreamItem) (cur : String) (calls : List (Option AccCall))
      (evs : List Ev),
      ∀ e ∈ (runStream D acc items cur calls evs).2.2,
        e ∈ evs ∨ ∃ t, e = Ev.msgUpdate t := by
  intro items
  induction items with
  | nil => intro cur calls evs e he; exact Or.inl he
  | cons item rest ih =>
    intro cur calls evs e he
    cases item with
    | text s fired =>
      by_cases hs : s = ""
      · rw [show runStream D acc (.text s fired :: rest) cur calls evs
            = runStream D acc rest cur calls evs from by
          conv_lhs => unfold runStream
          rw [if_pos hs]] at he
        exact ih cur calls evs e he
      · rw [show runStream D acc (.text s fired :: rest) cur calls evs
            = runStream D acc rest (cur ++ s) calls
                (if fired then evs ++ [Ev.msgUpdate (acc ++ (cur ++ s))] else evs)
            from by
          conv_lhs => unfold runStream
          rw [if_neg hs]] at he
        rcases ih _ _ _ e he with hmem | hupd
        · by_cases hf : fired
          · rw [if_pos hf] at hmem
            rcases List.mem_append.mp hmem with h | h
            · exact Or.inl h
            · exact Or.inr ⟨_, List.mem_singleton.mp h⟩
          · rw [if_neg hf] at hmem
            exact Or.inl hmem
        · exact Or.inr hupd
    | toolDeltas ds =>
      rw [show runStream D acc (.toolDeltas ds :: rest) cur calls evs
          = runStream D acc rest cur (ds.foldl (applyToolDelta D) calls) evs
          from rfl] at he
      exact ih _ _ _ e he

lemma runLoop_events (ctx : Ctx) :
    ∀ (script : List RoundScript) (acc : String),
      ∀ e ∈ (runLoop ctx script acc).1, ∃ t, e = Ev.msgUpdate t := by
  intro script
  induction script with
  | nil => intro acc e he; exact absurd he (by simp [runLoop])
  | cons r rest ih =>
    intro acc e he
    cases r with
    | throws items =>
      rw [show (runLoop ctx (.throws items :: rest) acc).1
          = (runStream ctx.defaultId acc items "" [] []).2.2 from rfl] at he
      rcases runStream_events ctx.defaultId acc items "" [] [] e he with h | h
      · exact absurd h (by simp)
      · exact h
    | ok items =>
      by_cases hemp : (runStream ctx.defaultId acc items "" [] []).2.1.isEmpty
      · rw [show (runLoop ctx (.ok items :: rest) acc).1
            = (runStream ctx.defaultId acc items "" [] []).2.2 from by
          unfold runLoop; rw [if_pos hemp]] at he
        rcases runStream_events ctx.defaultId acc items "" [] [] e he with h | h
        · exact absurd h (by simp)
        · exact h
      · cases hpc : processToolCalls ctx (runStream ctx.defaultId acc items "" [] []).2.1 with
        | error u =>
          rw [show (runLoop ctx (.ok items :: rest) acc).1
              = (runStream ctx.defaultId acc items "" [] []).2.2 from by
            unfold runLoop; rw [if_neg hemp, hpc]] at he
          rcases runStream_events ctx.defaultId acc items "" [] [] e he with h | h
          · exact absurd h (by simp)
          · exact h
        | ok rn =>
          rw [show (runLoop ctx (.ok items :: rest) acc).1
              = (runStream ctx.defaultId acc items "" [] []).2.2
                  ++ (runLoop ctx rest acc).1 from by
            conv_lhs => unfold runLoop
            rw [if_neg hemp, hpc]] at he
          rcases List.mem_append.mp he with h | h
          · rcases runStream_events ctx.defaultId acc items "" [] [] e h with h2 | h2
            · exact absurd h2 (by simp)
            · exact h2
          · exact ih acc e h

/-- C1: every turn publishes the authoritative text exactly once, at the
end of the trace.  On the success path the trace ends with the final
`partialUpdateMessage` carrying the trimmed accumulation, immediately
followed by `ai_indicator.clear`; on the provider-error path it ends with
an `ai_indicator.update AI_STATE_ERROR` immediately followed by the final
publish of the fixed fallback envelope.  Everything before that suffix is
the message creation, the THINKING indicator and throttled partial
publishes only — no clear and no error indicator — so the exhibited
publish is the unique final one. -/
theorem c1_exactly_one_final_publish (ctx : Ctx) (script : List RoundScript) :
    ∃ p : List Ev,
      (Ev.aiClear ∉ p ∧ Ev.aiUpdate "AI_STATE_ERROR" ∉ p) ∧
      ((∃ s, (runLoop ctx script "").2.1 = some s ∧
          handleTrace ctx script = p ++ [Ev.msgUpdate (jsTrim s), Ev.aiClear])
        ∨ ((runLoop ctx script "").2.1 = none ∧
          handleTrace ctx script
            = p ++ [Ev.aiUpdate "AI_STATE_ERROR", Ev.msgUpdate fallbackText])) := by
  refine ⟨[Ev.msgNew, Ev.aiUpdate "AI_STATE_THINKING"] ++ (runLoop ctx script "").1,
    ⟨?_, ?_⟩, ?_⟩
  · intro h
    rcases List.mem_append.mp h with h | h
    · simp at h
    · obtain ⟨t, ht⟩ := runLoop_events ctx script "" _ h
      exact Ev.noConfusion ht
  · intro h
    rcases List.mem_append.mp h with h | h
    · rcases List.mem_cons.mp h with h | h
      · exact Ev.noConfusion h
      · rcases List.mem_singleton.mp h with h2
        have : ("AI_STATE_ERROR" : String) = "AI_STATE_THINKING" := by
          injection h2
        exact absurd this (by decide)
    · obtain ⟨t, ht⟩ := runLoop_events ctx script "" _ h
      exact Ev.noConfusion ht
  · cases hfin : (runLoop ctx script "").2.1 with
    | some s =>
      left
      refine ⟨s, rfl, ?_⟩
      unfold handleTrace
      dsimp only
      rw [hfin]
      simp [List.append_assoc]
    | none =>
      right
      refine ⟨rfl, ?_⟩
      unfold handleTrace
      dsimp only
      rw [hfin]
      simp [List.append_assoc]

/-! ### C5: history budgeting, recency floor, ordering -/

lemma histGo_spec (jtf : String → Option String) (maxT : Int) :
    ∀ (rest : List ChannelMsg) (history : List Turn) (tot : Nat),
      tot = sumTok history →
      (MIN_HISTORY_MESSAGES < history.length → (tot : Int) ≤ maxT) →
      ∃ s : List Turn,
        histGo jtf maxT rest history tot = s.reverse ++ history
        ∧ s <+: decodedTurns jtf rest
        ∧ (history.length < MIN_HISTORY_MESSAGES →
            s.take (MIN_HISTORY_MESSAGES - history.length)
              = (decodedTurns jtf rest).take (MIN_HISTORY_MESSAGES - history.length))
        ∧ ((s.reverse ++ history).length ≤ MIN_HISTORY_MESSAGES
            ∨ (sumTok (s.reverse ++ history) : Int) ≤ maxT)
        ∧ (∀ t, (decodedTurns jtf rest)[s.length]? = some t →
            MIN_HISTORY_MESSAGES ≤ (s.reverse ++ history).length
            ∧ maxT < (sumTok (s.reverse ++ history) : Int)
                + (estimateTokens t.content : Int)) := by
  intro rest
  induction rest with
  | nil =>
    intro history tot htot hinv
    refine ⟨[], by simp [histGo], by simp [decodedTurns], by simp [decodedTurns], ?_, ?_⟩
    · by_cases hlen : history.length ≤ MIN_HISTORY_MESSAGES
      · exact Or.inl (by simpa using hlen)
      · refine Or.inr ?_
        have := hinv (Nat.lt_of_not_le hlen)
        simpa [← htot] using this
    · intro t ht
      simp [decodedTurns] at ht
  | cons m rest ih =>
    intro history tot htot hinv
    cases hdec : decodeMsg jtf m with
    | none =>
      have hstep : histGo jtf maxT (m :: rest) history tot
          = histGo jtf maxT rest history tot := by
        conv_lhs => unfold histGo
        rw [hdec]
      have hdt : decodedTurns jtf (m :: rest) = decodedTurns jtf rest := by
        unfold decodedTurns
        rw [List.filterMap_cons_none hdec]
      rw [hstep, hdt]
      exact ih history tot htot hinv
    | some turn =>
      have hdt : decodedTurns jtf (m :: rest) = turn :: decodedTurns jtf rest := by
        unfold decodedTurns
        rw [List.filterMap_cons_some hdec]
      by_cases hbreak : ¬ history.length < MIN_HISTORY_MESSAGES ∧
          (tot + estimateTokens turn.content : Int) > maxT
      · have hstep : histGo jtf maxT (m :: rest) history tot = history := by
          conv_lhs => unfold histGo
          rw [hdec]
          dsimp only
          rw [if_pos hbreak]
        rw [hstep, hdt]
        refine ⟨[], by simp, by simp, ?_, ?_, ?_⟩
        · intro hlt
          exact absurd hlt hbreak.1
        · by_cases h3 : MIN_HISTORY_MESSAGES < history.length
          · refine Or.inr ?_
            have := hinv h3
            simpa [← htot] using this
          · exact Or.inl (by simpa using Nat.le_of_not_lt h3)
        · intro t ht
          simp only [List.length_nil, List.getElem?_cons_zero,
            Option.some.injEq] at ht
          subst ht
          refine ⟨by simpa using Nat.le_of_not_lt hbreak.1, ?_⟩
          have h2 := hbreak.2
          rw [htot] at h2
          simp only [List.reverse_nil, List.nil_append]
          omega
      · have hstep : histGo jtf maxT (m :: rest) history tot
            = histGo jtf maxT rest (turn :: history)
                (tot + estimateTokens turn.content) := by
          conv_lhs => unfold histGo
          rw [hdec]
          dsimp only
          rw [if_neg hbreak]
        have htot' : tot + estimateTokens turn.content = sumTok (turn :: history) := by
          unfold sumTok at htot ⊢
          simp [htot]
          omega
        have hinv' : MIN_HISTORY_MESSAGES < (turn :: history).length →
            ((tot + estimateTokens turn.content : Nat) : Int) ≤ maxT := by
          intro hlt
          have hge : ¬ history.length < MIN_HISTORY_MESSAGES := by
            simp only [List.length_cons] at hlt
            omega
          have := (not_and.mp hbreak) hge
          push_cast
          omega
        obtain ⟨s, hs1, hs2, hs3, hs4, hs5⟩ :=
          ih (turn :: history) (tot + estimateTokens turn.content) htot' hinv'
        have hlisteq : (turn :: s).reverse ++ history
            = s.reverse ++ (turn :: history) := by
          simp [List.reverse_cons, List.append_assoc]
        refine ⟨turn :: s, ?_, ?_, ?_, ?_, ?_⟩
        · rw [hstep, hs1, hlisteq]
        · rw [hdt]
          obtain ⟨u, hu⟩ := hs2
          exact ⟨u, by rw [List.cons_append, hu]⟩
        · intro hlt
          rw [hdt]
          have hk : MIN_HISTORY_MESSAGES - history.length
              = (MIN_HISTORY_MESSAGES - (turn :: history).length) + 1 := by
            simp only [List.length_cons]
            omega
          rw [hk, List.take_succ_cons, List.take_succ_cons]
          by_cases h2 : (turn :: history).length < MIN_HISTORY_MESSAGES
          · rw [hs3 h2]
          · have hz : MIN_HISTORY_MESSAGES - (turn :: history).length = 0 := by
              omega
            rw [hz]
            simp
        · rw [hlisteq]
          exact hs4
        · intro t ht
          rw [hdt] at ht
          simp only [List.length_cons, List.getElem?_cons_succ] at ht
          rw [hlisteq]
          exact hs5 t ht

/-- C5 (amended): for every decode oracle, history allowance and message
list, the kept history satisfies: the total token estimate is within the
allowance OR at most `MIN_HISTORY_MESSAGES` turns were kept (the floor
wins over the cap, and with fewer than three decodable messages the floor
is just all of them); the kept turns are a contiguous most-recent suffix
of the decodable non-empty turns in chronological (oldest-first) order —
hence in particular a subsequence; the most recent `MIN_HISTORY_MESSAGES`
decodable non-empty turns are always kept regardless of budget; and older
turns stop being accepted exactly at the first budget overrun: whenever
some decodable turn is excluded, the floor is already met and re-adding
the most recent excluded turn would push the total over the allowance. -/
theorem c5_history_floor_budget_order (jtf : String → Option String)
    (maxTokens : Int) (messages : List ChannelMsg) :
    ((sumTok (getConversationHistory jtf maxTokens messages) : Int) ≤ maxTokens
      ∨ (getConversationHistory jtf maxTokens messages).length ≤ MIN_HISTORY_MESSAGES)
    ∧ (getConversationHistory jtf maxTokens messages) <:+ (decodedTurns jtf messages)
    ∧ (getConversationHistory jtf maxTokens messages).Sublist
        (decodedTurns jtf messages)
    ∧ (getConversationHistory jtf maxTokens messages).reverse.take MIN_HISTORY_MESSAGES
        = (decodedTurns jtf messages).reverse.take MIN_HISTORY_MESSAGES
    ∧ (∀ t, (decodedTurns jtf messages).reverse[
          (getConversationHistory jtf maxTokens messages).length]? = some t →
        MIN_HISTORY_MESSAGES ≤ (getConversationHistory jtf maxTokens messages).length
        ∧ maxTokens < (sumTok (getConversationHistory jtf maxTokens messages) : Int)
            + (estimateTokens t.content : Int)) := by
  by_cases hemp : messages.isEmpty
  · have h1 : getConversationHistory jtf maxTokens messages = [] := by
      unfold getConversationHistory
      rw [if_pos hemp]
    have h2 : messages = [] := by
      cases messages with
      | nil => rfl
      | cons a l => simp at hemp
    rw [h1, h2]
    refine ⟨Or.inr (by simp [MIN_HISTORY_MESSAGES]), by simp [decodedTurns], by simp,
      by simp [decodedTurns], ?_⟩
    intro t ht
    simp [decodedTurns] at ht
  · have h1 : getConversationHistory jtf maxTokens messages
        = histGo jtf maxTokens messages.reverse [] 0 := by
      unfold getConversationHistory
      rw [if_neg hemp]
    obtain ⟨s, hs1, hs2, hs3, hs4, hs5⟩ := histGo_spec jtf maxTokens messages.reverse [] 0
      (by simp [sumTok]) (by intro h; simp [MIN_HISTORY_MESSAGES] at h)
    have hrev : decodedTurns jtf messages.reverse
        = (decodedTurns jtf messages).reverse := by
      unfold decodedTurns
      exact List.filterMap_reverse _ _
    rw [h1, hs1]
    simp only [List.append_nil]
    rw [hrev] at hs2 hs3 hs5
    simp only [List.append_nil] at hs4 hs5
    have hsuf : s.reverse <:+ decodedTurns jtf messages := by
      obtain ⟨u, hu⟩ := hs2
      refine ⟨u.reverse, ?_⟩
      have h3 := congrArg List.reverse hu
      simpa using h3
    refine ⟨?_, hsuf, hsuf.sublist, ?_, ?_⟩
    · rcases hs4 with h | h
      · exact Or.inr (by simpa using h)
      · exact Or.inl (by simpa using h)
    · rw [List.reverse_reverse]
      have h0 : ([] : List Turn).length < MIN_HISTORY_MESSAGES := by
        simp [MIN_HISTORY_MESSAGES]
      have h4 := hs3 h0
      simpa using h4
    · intro t ht
      rw [List.length_reverse] at ht
      exact hs5 t ht

/-- C5 counterexample: with allowance 0 and a single decodable 8-character
message, the kept history has 1 turn and total estimate 2, so neither
`sum ≤ allowance` nor `kept count = MIN_HISTORY_MESSAGES (= 3)` holds —
the claim's disjunction fails when fewer than three decodable turns
exist. -/
theorem c5_counterexample_floor_not_reached :
    getConversationHistory (fun _ => none) 0 [⟨some "aaaaaaaa", false⟩]
        = [⟨"user", "aaaaaaaa"⟩]
      ∧ ¬ ((sumTok (getConversationHistory (fun _ => none) 0
              [⟨some "aaaaaaaa", false⟩]) : Int) ≤ 0
            ∨ (getConversationHistory (fun _ => none) 0
                [⟨some "aaaaaaaa", false⟩]).length = MIN_HISTORY_MESSAGES) := by
  constructor
  · rfl
  · decide

/-- Witness for the break clause of the C5 theorem: with allowance 6 and
four decodable 8-character messages (2 estimated tokens each), exactly
the three most recent turns are kept, the fourth (next-older) decodable
turn sits at the cut index, the floor is met, and re-adding that turn
would exceed the allowance (6 < 6 + 2). -/
theorem c5_history_witness :
    (decodedTurns (fun _ => none)
        [⟨some "aaaaaaaa", false⟩, ⟨some "aaaaaaaa", false⟩,
          ⟨some "aaaaaaaa", false⟩, ⟨some "aaaaaaaa", false⟩]).reverse[
        (getConversationHistory (fun _ => none) 6
          [⟨some "aaaaaaaa", false⟩, ⟨some "aaaaaaaa", false⟩,
            ⟨some "aaaaaaaa", false⟩, ⟨some "aaaaaaaa", false⟩]).length]?
      = some ⟨"user", "aaaaaaaa"⟩
    ∧ (MIN_HISTORY_MESSAGES
          ≤ (getConversationHistory (fun _ => none) 6
              [⟨some "aaaaaaaa", false⟩, ⟨some "aaaaaaaa", false⟩,
                ⟨some "aaaaaaaa", false⟩, ⟨some "aaaaaaaa", false⟩]).length
        ∧ (6 : Int) < (sumTok (getConversationHistory (fun _ => none) 6
              [⟨some "aaaaaaaa", false⟩, ⟨some "aaaaaaaa", false⟩,
                ⟨some "aaaaaaaa", false⟩, ⟨some "aaaaaaaa", false⟩]) : Int)
            + (estimateTokens (Turn.mk "user" "aaaaaaaa").content : Int)) :=
  ⟨by decide,
    (c5_history_floor_budget_order (fun _ => none) 6
        [⟨some "aaaaaaaa", false⟩, ⟨some "aaaaaaaa", false⟩,
          ⟨some "aaaaaaaa", false⟩, ⟨some "aaaaaaaa", false⟩]).2.2.2.2
      ⟨"user", "aaaaaaaa"⟩ (by decide)⟩

/-! ### C7: incremental envelope decoding of truncated fragments -/

/-- A character list reachable as a prefix of JSON-escaped text: scanning
it while consuming backslash pairs atomically never lands on a bare
quote.  This is exactly the condition under which the capture scan of the
extraction regex cannot find a closing quote. -/
def noBareQuote : List Char → Bool
  | [] => true
  | c :: rest =>
    if c = '"' then false
    else if c = '\\' then
      match rest with
      | [] => true
      | _ :: rest2 => noBareQuote rest2
    else noBareQuote rest

lemma noBareQuote_of_esc_prefix :
    ∀ (t p : List Char), p <+: escJsonList t → noBareQuote p = true := by
  intro t
  induction t with
  | nil =>
    intro p hp
    have hnil : p = [] := List.prefix_nil.mp (by simpa [escJsonList] using hp)
    rw [hnil]
    rfl
  | cons c rest ih =>
    intro p hp
    have hesc : escJsonList (c :: rest) = escChar c ++ escJsonList rest := rfl
    rw [hesc] at hp
    have hpair : ∀ (x : Char), escChar c = ['\\', x] →
        noBareQuote p = true := by
      intro x hx
      rw [hx] at hp
      rcases List.prefix_cons_iff.mp hp with h | ⟨t1, rfl, ht1⟩
      · rw [h]; rfl
      rcases List.prefix_cons_iff.mp ht1 with h | ⟨t2, rfl, ht2⟩
      · rw [h]; rfl
      show noBareQuote ('\\' :: x :: t2) = true
      unfold noBareQuote
      rw [if_neg (by decide), if_pos rfl]
      exact ih t2 ht2
    by_cases h1 : c = '"'
    · exact hpair '"' (by simp [escChar, h1])
    by_cases h2 : c = '\\'
    · exact hpair '\\' (by simp [escChar, h1, h2])
    by_cases h3 : c = '\n'
    · exact hpair 'n' (by simp [escChar, h1, h2, h3])
    by_cases h4 : c = '\t'
    · exact hpair 't' (by simp [escChar, h1, h2, h3, h4])
    · have hx : escChar c = [c] := by simp [escChar, h1, h2, h3, h4]
      rw [hx] at hp
      rcases List.prefix_cons_iff.mp hp with h | ⟨t1, rfl, ht1⟩
      · rw [h]; rfl
      show noBareQuote (c :: t1) = true
      unfold noBareQuote
      rw [if_neg h1, if_neg h2]
      exact ih t1 ht1

lemma scanBody_none : ∀ (p : List Char), noBareQuote p = true → scanBody p = none := by
  intro p
  induction p using noBareQuote.induct with
  | case1 => intro _; rfl
  | case2 rest =>
    intro h
    unfold noBareQuote at h
    rw [if_pos rfl] at h
    exact absurd h (by simp)
  | case3 hne => intro _; rfl
  | case4 c rest hne ih =>
    intro h
    unfold noBareQuote at h
    rw [if_neg (by decide), if_pos rfl] at h
    dsimp only at h
    unfold scanBody
    rw [if_neg (by decide), if_pos rfl]
    dsimp only
    rw [ih h]
    rfl
  | case5 c rest hq hb ih =>
    intro h
    unfold noBareQuote at h
    rw [if_neg hq, if_neg hb] at h
    unfold scanBody
    rw [if_neg hq, if_neg hb, ih h]
    rfl

lemma no_text_quote (p : List Char) (h : noBareQuote p = true) :
    (['t', 'e', 'x', 't', '"'].isPrefixOf p) = false := by
  by_contra hc
  rw [Bool.not_eq_false] at hc
  obtain ⟨t2, ht⟩ := List.isPrefixOf_iff_prefix.mp hc
  rw [← ht] at h
  simp only [List.cons_append] at h
  unfold noBareQuote at h
  rw [if_neg (by decide), if_neg (by decide)] at h
  unfold noBareQuote at h
  rw [if_neg (by decide), if_neg (by decide)] at h
  unfold noBareQuote at h
  rw [if_neg (by decide), if_neg (by decide)] at h
  unfold noBareQuote at h
  rw [if_neg (by decide), if_neg (by decide)] at h
  unfold noBareQuote at h
  rw [if_pos rfl] at h
  exact absurd h (by simp)

lemma tryTextAt_ne_quote (c : Char) (r : List Char) (h : c ≠ '"') :
    tryTextAt (c :: r) = none := by
  have hb : ('"' == c) = false := by
    rw [beq_eq_false_iff_ne]
    exact fun he => h he.symm
  unfold tryTextAt
  rw [if_neg (by simp [List.isPrefixOf, hb])]

lemma tryTextAt_quote (r : List Char)
    (h : (['t', 'e', 'x', 't', '"'].isPrefixOf r) = false) :
    tryTextAt ('"' :: r) = none := by
  unfold tryTextAt
  rw [if_neg (by simp [List.isPrefixOf, h])]

lemma findTextMatch_cons (c : Char) (r : List Char)
    (h : tryTextAt (c :: r) = none) :
    findTextMatch (c :: r) = findTextMatch r := by
  conv_lhs => unfold findTextMatch
  rw [h]

lemma findTextMatch_none : ∀ (p : List Char), noBareQuote p = true →
    findTextMatch p = none := by
  intro p
  induction p using noBareQuote.induct with
  | case1 => intro _; rfl
  | case2 rest =>
    intro h
    unfold noBareQuote at h
    rw [if_pos rfl] at h
    exact absurd h (by simp)
  | case3 hne => intro _; rfl
  | case4 c rest hne ih =>
    intro h
    unfold noBareQuote at h
    rw [if_neg (by decide), if_pos rfl] at h
    dsimp only at h
    rw [findTextMatch_cons _ _ (tryTextAt_ne_quote _ _ (by decide))]
    by_cases hq2 : c = '"'
    · subst hq2
      rw [findTextMatch_cons _ _ (tryTextAt_quote rest (no_text_quote rest h))]
      exact ih h
    · rw [findTextMatch_cons _ _ (tryTextAt_ne_quote _ _ hq2)]
      exact ih h
  | case5 c rest hq hb ih =>
    intro h
    unfold noBareQuote at h
    rw [if_neg hq, if_neg hb] at h
    rw [findTextMatch_cons _ _ (tryTextAt_ne_quote _ _ hq)]
    exact ih h

lemma langWalk : ∀ (l Y : List Char), (∀ c ∈ l, c ≠ '"') →
    findTextMatch (l ++ Y) = findTextMatch Y := by
  intro l
  induction l with
  | nil => intro Y _; rfl
  | cons c l' ih =>
    intro Y hq
    rw [List.cons_append,
      findTextMatch_cons c _ (tryTextAt_ne_quote c _ (hq c (by simp)))]
    exact ih Y (fun c2 hc2 => hq c2 (by simp [hc2]))

lemma textq_false_of_len5 (lang : String) (h5 : lang.length = 5)
    (hq : ∀ c ∈ lang.data, c ≠ '"') (Y : List Char) :
    (['t', 'e', 'x', 't', '"'].isPrefixOf (lang.data ++ Y)) = false := by
  by_contra hc
  rw [Bool.not_eq_false] at hc
  obtain ⟨t2, ht⟩ := List.isPrefixOf_iff_prefix.mp hc
  have h4 : (['t', 'e', 'x', 't', '"'] ++ t2)[4]? = some '"' := by simp
  rw [ht] at h4
  have hlen : lang.data.length = 5 := h5
  rw [List.getElem?_append_left (by rw [hlen]; omega)] at h4
  have hmem : '"' ∈ lang.data := by
    have := List.getElem?_eq_some_iff.mp h4
    obtain ⟨hlt, hget⟩ := this
    exact hget ▸ List.getElem_mem hlt
  exact hq '"' hmem rfl

lemma dropWhile_rev_brace : ∀ (w : List Char),
    ∃ tl, (List.dropWhile jsWsB (w ++ ['\x7b'])).reverse = '\x7b' :: tl := by
  intro w
  induction w with
  | nil => exact ⟨[], by decide⟩
  | cons a w' ih =>
    by_cases ha : jsWsB a = true
    · rw [List.cons_append, List.dropWhile_cons, if_pos ha]
      exact ih
    · rw [List.cons_append, List.dropWhile_cons, if_neg ha]
      exact ⟨w'.reverse ++ [a], by simp⟩

lemma trim_brace (r : List Char) :
    startsWithChar '\x7b' (jsTrimList ('\x7b' :: r)) = true := by
  unfold jsTrimList
  have h1 : List.dropWhile jsWsB ('\x7b' :: r) = '\x7b' :: r := by
    rw [List.dropWhile_cons, if_neg (by decide : ¬ (jsWsB '\x7b' = true))]
  rw [h1, show ('\x7b' :: r).reverse = r.reverse ++ ['\x7b'] from by simp]
  obtain ⟨tl, htl⟩ := dropWhile_rev_brace r.reverse
  rw [htl]
  rfl

lemma findTextMatch_frag_none (lang : String) (h5 : lang.length = 5)
    (hq : ∀ c ∈ lang.data, c ≠ '"') (p : List Char) (hp : noBareQuote p = true) :
    findTextMatch (fragList lang p) = none := by
  have hscan : scanBody p = none := scanBody_none p hp
  have hassoc : fragList lang p
      = ['\x7b', '"', 'l', 'a', 'n', 'g', '"', ':', ' ', '"']
          ++ (lang.data
            ++ (['"', ',', ' ', '"', 't', 'e', 'x', 't', '"', ':', ' ', '"'] ++ p)) := by
    simp [fragList]
  rw [hassoc]
  have hstep1 : findTextMatch
        ((['\x7b', '"', 'l', 'a', 'n', 'g', '"', ':', ' ', '"'] : List Char)
          ++ (lang.data
            ++ (['"', ',', ' ', '"', 't', 'e', 'x', 't', '"', ':', ' ', '"'] ++ p)))
      = findTextMatch ('"' :: (lang.data
          ++ (['"', ',', ' ', '"', 't', 'e', 'x', 't', '"', ':', ' ', '"'] ++ p))) := rfl
  rw [hstep1,
    findTextMatch_cons _ _ (tryTextAt_quote _ (textq_false_of_len5 lang h5 hq _)),
    langWalk lang.data _ hq]
  have hstep2 : findTextMatch
        ((['"', ',', ' ', '"', 't', 'e', 'x', 't', '"', ':', ' ', '"'] : List Char) ++ p)
      = findTextMatch ('"' :: 't' :: 'e' :: 'x' :: 't' :: '"' :: ':' :: ' ' :: '"' :: p) := rfl
  rw [hstep2]
  have hkey : tryTextAt ('"' :: 't' :: 'e' :: 'x' :: 't' :: '"' :: ':' :: ' ' :: '"' :: p)
      = scanBody p := rfl
  rw [findTextMatch_cons _ _ (by rw [hkey, hscan])]
  have hstep3 : findTextMatch ('t' :: 'e' :: 'x' :: 't' :: '"' :: ':' :: ' ' :: '"' :: p)
      = findTextMatch ('"' :: p) := rfl
  rw [hstep3,
    findTextMatch_cons _ _ (tryTextAt_quote _ (no_text_quote p hp))]
  exact findTextMatch_none p hp

/-- C7: for every response envelope truncated inside the `text` value
(the closing quote not yet received), the incremental decoder returns
`complete = false` together with a prefix of the true text with the
escapes resolved — the extraction regex requires a closing quote, so that
prefix is always the empty one and the decoder falls back to the
looks-like-an-object branch; and in general, whenever the full parse
fails, no `text` field is extractable and the trimmed fragment starts
with a brace, the decoder returns empty text with `complete = false`
rather than surfacing partial JSON. -/
theorem c7_truncated_text_decode :
    (∀ (jsonParse : String → Option ParsedEnv) (lang text : String) (p : List Char),
      lang.length = 5 → (∀ c ∈ lang.data, c ≠ '"') →
      p <+: escJsonList text.data →
      jsonParse (mkFrag lang p) = none →
      extractTextFromStreamingJSON jsonParse (mkFrag lang p) = ⟨"", none, false⟩
        ∧ (extractTextFromStreamingJSON jsonParse (mkFrag lang p)).text.data
            <+: text.data)
    ∧ (∀ (jsonParse : String → Option ParsedEnv) (raw : String),
      jsonParse raw = none → findTextMatch raw.data = none →
      startsWithChar '\x7b' (jsTrimList raw.data) = true →
      extractTextFromStreamingJSON jsonParse raw = ⟨"", none, false⟩) := by
  have main : ∀ (jsonParse : String → Option ParsedEnv) (raw : String),
      jsonParse raw = none → findTextMatch raw.data = none →
      startsWithChar '\x7b' (jsTrimList raw.data) = true →
      extractTextFromStreamingJSON jsonParse raw = ⟨"", none, false⟩ := by
    intro jsonParse raw hparse hfind hbrace
    by_cases hr : raw = ""
    · subst hr
      rfl
    · unfold extractTextFromStreamingJSON
      rw [if_neg hr, hparse]
      dsimp only
      rw [hfind]
      rw [if_pos hbrace]
  refine ⟨?_, main⟩
  intro jsonParse lang text p h5 hq hesc hparse
  have hp : noBareQuote p = true := noBareQuote_of_esc_prefix text.data p hesc
  have hdata : (mkFrag lang p).data = fragList lang p := rfl
  have hres : extractTextFromStreamingJSON jsonParse (mkFrag lang p)
      = ⟨"", none, false⟩ := by
    refine main jsonParse (mkFrag lang p) hparse ?_ ?_
    · rw [hdata]
      exact findTextMatch_frag_none lang h5 hq p hp
    · rw [hdata]
      exact trim_brace _
  refine ⟨hres, ?_⟩
  rw [hres]
  exact List.nil_prefix

/-- Witness for `c7_truncated_text_decode`: the envelope
`{"lang": "en-US", "text": "Hello"}` truncated to `...text": "Hel`
decodes to empty text with `complete = false`. -/
theorem c7_truncated_decode_witness :
    extractTextFromStreamingJSON (fun _ => none) (mkFrag "en-US" "Hel".data)
      = ⟨"", none, false⟩ :=
  (c7_truncated_text_decode.1 (fun _ => none) "en-US" "Hello" "Hel".data
    (by decide) (by decide) (by decide) rfl).1

end CareCompanion
